import Mathlib

/-!
# Retained-mode UI tree: layout, render traversal and input dispatch

A shallow embedding of the UI core used by the example applications
(`src/examples/euclidean_app.hpp`, `src/main.cpp`).

* Numbers are exact rationals: the C++ `float` fields are read as the real
  values they denote, and `resolve` and `layout` compute without rounding.
  Rounding to the `float` format is modelled separately (`roundFloat`,
  `resolveFloat`) for the one property it decides, the scaling of resolved
  sizes.
* A component is identified by its path from the root: the list of child
  indices followed to reach it (`[]` is the root).  Paths stand for the C++
  object addresses (`control.get()`).
* `UISurface::render`, `UISurface::input`, `UISurface::handle_input` and
  `UISurface::draw` are translated from `euclidean_app.hpp`.
* The header declaring `UIComponent` / `UWidget` (`universal_widget.hpp`) is
  not among the source files; `resolve`, `add_child`, `layout` and the
  rectangle hit test are modelled from the specification and marked so.
* `make_euclidean_rhythm` (`euclidean_app.hpp`) is translated with `int` as
  integers, every vector access and every division checked, and its
  `while (true)` loop bounded by a fuel argument; the theorems show that fuel
  of at least `pulses` is never used up.
* `make_sphere_mesh` (`main.cpp`) is translated up to the hand-over of the
  geometry to the graphics library.
-/

namespace UILayout

/-! ## Data model -/

/-- Colour of the drawing library, as the four byte channels given to `nvgRGBA`. -/
structure NVGcolor where
  r : Nat
  g : Nat
  b : Nat
  a : Nat
deriving DecidableEq, Repr

/-- Flat style sheet: `textColor`, `backgroundColor`, `borderColor`
(`euclidean_app.hpp`, lines 292-295). -/
structure UIStyleSheet where
  textColor : NVGcolor
  backgroundColor : NVGcolor
  borderColor : NVGcolor
deriving DecidableEq, Repr

/-- Absolute rectangle `(x0, y0, x1, y1)` in surface pixel coordinates
(`root->bounds = {0, 0, width, height}`; fields `bounds.x0`, `bounds.y0`). -/
structure Rect where
  x0 : ℚ
  y0 : ℚ
  x1 : ℚ
  y1 : ℚ
deriving DecidableEq, Repr

/-- Width of a rectangle (`bounds.width()`): its size on the x axis. -/
def Rect.width (r : Rect) : ℚ := r.x1 - r.x0

/-- Height of a rectangle (`bounds.height()`): its size on the y axis. -/
def Rect.height (r : Rect) : ℚ := r.y1 - r.y0

/-- One edge of a placement: a fraction of the parent's size plus a pixel
offset, written `{fraction, offset}` at the call sites. -/
structure Anchor where
  fraction : ℚ
  offset : ℚ
deriving DecidableEq, Repr

/-- Placement of a child relative to its parent.  The four anchors are in the
order of the brace initialisers at the call sites,
`{{x0}, {y0}, {x1}, {y1}}`: minimum x edge, minimum y edge, maximum x edge,
maximum y edge. -/
structure Placement where
  x0 : Anchor
  y0 : Anchor
  x1 : Anchor
  y1 : Anchor
deriving DecidableEq, Repr

/-- Widget-specific members of the classes derived from `UIComponent`:
`LabelControl` (`text`), `ButtonControl` (`value`, `hover`, `text`) and
`SliderControl` (`min`, `max`, `value`).  A bound variable (`bool *`,
`float *`) is the number of the variable it points to, `none` while unset. -/
inductive Control where
  | component : Control
  | label (text : String) : Control
  | button (value : Option Nat) (hover : Bool) (text : String) : Control
  | slider (min max : ℚ) (value : Option Nat) : Control
deriving DecidableEq, Repr

/-- Tree node (`UIComponent`, `UWidget`): style, widget members, resolved
bounds, placement relative to the parent, and the owned children in
insertion order. -/
inductive UIComponent where
  | mk (style : UIStyleSheet) (control : Control) (bounds : Rect)
      (placement : Placement) (children : List UIComponent) : UIComponent

/-- The `style` member. -/
def UIComponent.style : UIComponent → UIStyleSheet
  | .mk s _ _ _ _ => s

/-- The widget members. -/
def UIComponent.control : UIComponent → Control
  | .mk _ k _ _ _ => k

/-- The `bounds` member. -/
def UIComponent.bounds : UIComponent → Rect
  | .mk _ _ b _ _ => b

/-- The placement recorded for the node when it was attached. -/
def UIComponent.placement : UIComponent → Placement
  | .mk _ _ _ p _ => p

/-- The `children` member. -/
def UIComponent.children : UIComponent → List UIComponent
  | .mk _ _ _ _ cs => cs

/-- Path of a node: child indices from the root. -/
abbrev Path := List Nat

/-- The node reached from `n` by following the child indices of a path. -/
def UIComponent.nodeAt : UIComponent → Path → Option UIComponent
  | n, [] => some n
  | .mk _ _ _ _ cs, i :: p =>
    match cs[i]? with
    | some c => c.nodeAt p
    | none => none

/-- Kind of an input event (`InputEvent::CURSOR`, `InputEvent::MOUSE`, ...). -/
inductive InputEventType where
  | CURSOR
  | MOUSE
  | KEY
  | CHAR
deriving DecidableEq, Repr

/-- Input event: its kind and the cursor position (`e.cursor`). -/
structure InputEvent where
  type : InputEventType
  cursor : ℚ × ℚ
deriving DecidableEq, Repr

/-- Render context `UIRenderEvent e = {nvg, root.get(), text, icon}`: drawing
context handle, parent pointer (a path), text and icon font handles. -/
structure UIRenderEvent where
  ctx : Nat
  parent : Path
  text : Nat
  icon : Nat
deriving DecidableEq, Repr

/-- One invocation of a render hook, `control->render(e)`: the node it is
invoked on and the context it is given. -/
structure RenderCall where
  control : Path
  e : UIRenderEvent
deriving DecidableEq, Repr

/-! ## Placement resolution, `add_child`, `layout`, hit test -/

/-- Modelled from the spec: the placement resolution function of the missing
widget header.  For each axis
`child.min = parent.min + fraction_min * parent.size + offset_min` and
`child.max = parent.min + fraction_max * parent.size + offset_max`;
fractions are not clamped. -/
def resolve (parent : Rect) (pl : Placement) : Rect :=
  { x0 := parent.x0 + pl.x0.fraction * parent.width + pl.x0.offset
    y0 := parent.y0 + pl.y0.fraction * parent.height + pl.y0.offset
    x1 := parent.x0 + pl.x1.fraction * parent.width + pl.x1.offset
    y1 := parent.y0 + pl.y1.fraction * parent.height + pl.y1.offset }

/-- Modelled from the spec: `add_child(placement, child)` of the missing widget
header.  Appends `child` to the ordered children sequence and records
`placement` as the relation between `child` and the node; no bounds are
resolved. -/
def UIComponent.add_child : UIComponent → Placement → UIComponent → UIComponent
  | .mk s k b p cs, placement, .mk s' k' b' _ cs' =>
    .mk s k b p (cs ++ [.mk s' k' b' placement cs'])

mutual
/-- Modelled from the spec: one child's step of `layout()`: the child's bounds
become `resolve(parent.bounds, placement)`, then its own children are laid
out against the new bounds. -/
def layoutChild (parent : Rect) : UIComponent → UIComponent
  | .mk s k _ p cs => .mk s k (resolve parent p) p (layoutChildren (resolve parent p) cs)
/-- Modelled from the spec: the loop of `layout()` over the children, in
insertion order. -/
def layoutChildren (parent : Rect) : List UIComponent → List UIComponent
  | [] => []
  | c :: rest => layoutChild parent c :: layoutChildren parent rest
end

/-- Modelled from the spec: `layout()` of the missing widget header, called on
a node whose bounds are already final (the root keeps its bounds): resolves
the bounds of all descendants top-down. -/
def UIComponent.layout : UIComponent → UIComponent
  | .mk s k b p cs => .mk s k b p (layoutChildren b cs)

/-- Modelled from the spec: the hit test `bounds.inside(e.cursor)` of the
missing rectangle type, the gate "the cursor position lies inside the node's
bounds".  Minimum edges are inclusive and maximum edges exclusive, so that
degenerate and inverted rectangles hit-test as empty. -/
def Rect.inside (r : Rect) (cursor : ℚ × ℚ) : Bool :=
  decide (r.x0 ≤ cursor.1) && decide (r.y0 ≤ cursor.2) &&
    decide (cursor.1 < r.x1) && decide (cursor.2 < r.y1)

/-! ## `UISurface` -/

/-- The surface (`class UISurface`): drawing context handle, font handles, the
root node and the current style sheet. -/
structure UISurface where
  nvg : Nat
  text_fontface : Nat
  icon_fontface : Nat
  root : UIComponent
  stylesheet : UIStyleSheet

mutual
/-- Method `UISurface::render(e, control)`: invoke the node's render hook, then for
each child set `e.parent` to the node and recurse.  The context `e` is passed
by reference, so it is threaded through; the result is the sequence of hook
invocations and the final context. -/
def render (e : UIRenderEvent) (path : Path) : UIComponent → List RenderCall × UIRenderEvent
  | .mk _ _ _ _ cs =>
    let r := renderChildren e path 0 cs
    (RenderCall.mk path e :: r.1, r.2)
/-- The `for (auto & c : control->children)` loop of `UISurface::render`;
`i` is the index of the first child of the list. -/
def renderChildren (e : UIRenderEvent) (path : Path) (i : Nat) :
    List UIComponent → List RenderCall × UIRenderEvent
  | [] => ([], e)
  | c :: rest =>
    let r1 := render { e with parent := path } (path ++ [i]) c
    let r2 := renderChildren r1.2 path (i + 1) rest
    (r1.1 ++ r2.1, r2.2)
end

mutual
/-- Method `UISurface::input(e, control)`: if the cursor is inside the node's bounds,
invoke the node's input hook and recurse into every child.  The result is the
sequence of nodes whose input hook is invoked. -/
def input (e : InputEvent) (path : Path) : UIComponent → List Path
  | .mk _ _ b _ cs =>
    if b.inside e.cursor then path :: inputChildren e path 0 cs else []
/-- The `for (const auto & c : control->children)` loop of `UISurface::input`;
`i` is the index of the first child of the list. -/
def inputChildren (e : InputEvent) (path : Path) (i : Nat) : List UIComponent → List Path
  | [] => []
  | c :: rest => input e (path ++ [i]) c ++ inputChildren e path (i + 1) rest
end

/-- Method `UISurface::handle_input(event)`: `input(event, root)`. -/
def UISurface.handle_input (s : UISurface) (event : InputEvent) : List Path :=
  input event [] s.root

/-- Method `UISurface::draw(window)`: build the context `{nvg, root.get(), text, icon}`
and call `render(e, root)`; the result is the sequence of render-hook
invocations of the frame. -/
def UISurface.draw (s : UISurface) : List RenderCall :=
  (render { ctx := s.nvg, parent := [], text := s.text_fontface, icon := s.icon_fontface }
    [] s.root).1

/-! ## Reference notions for the traversals -/

mutual
/-- Pre-order listing of the subtree of a node whose path is `path`: the node
itself, then the full subtree of each of its children in insertion order. -/
def preorder (path : Path) : UIComponent → List Path
  | .mk _ _ _ _ cs => path :: preorderChildren path 0 cs
/-- Pre-order listings of the subtrees of a list of children, one after the
other; `i` is the index of the first child of the list. -/
def preorderChildren (path : Path) (i : Nat) : List UIComponent → List Path
  | [] => []
  | c :: rest => preorder (path ++ [i]) c ++ preorderChildren path (i + 1) rest
end

/-- The cursor is inside the bounds of the node reached by the path and of
every node passed on the way, the starting node included; `false` when the
path leads to no node. -/
def passesGates (cursor : ℚ × ℚ) : UIComponent → Path → Bool
  | n, [] => n.bounds.inside cursor
  | .mk _ _ b _ cs, i :: p =>
    b.inside cursor &&
      match cs[i]? with
      | some c => passesGates cursor c p
      | none => false

/-- The node at path `p` of the tree `t` exists, and the cursor is inside its
bounds and inside the bounds of every one of its ancestors up to and including
the root (the nodes at the initial segments of `p`). -/
def InsideAll (t : UIComponent) (cursor : ℚ × ℚ) (p : Path) : Prop :=
  (∃ n, t.nodeAt p = some n) ∧
    ∀ (q : Path) (m : UIComponent), q <+: p → t.nodeAt q = some m → m.bounds.inside cursor = true

/-! ## Example data -/

/-- The style sheet set up by the Euclidean application
(`euclidean_app.hpp`, lines 292-295). -/
def appStyleSheet : UIStyleSheet :=
  { textColor := ⟨255, 255, 255, 255⟩
    backgroundColor := ⟨30, 30, 30, 255⟩
    borderColor := ⟨255, 255, 255, 255⟩ }

/-- The placement with all fractions and offsets zero. -/
def zeroPlacement : Placement := ⟨⟨0, 0⟩, ⟨0, 0⟩, ⟨0, 0⟩, ⟨0, 0⟩⟩

/-- A plain component with the given bounds and children, used to build example trees. -/
def plainNode (b : Rect) (cs : List UIComponent) : UIComponent :=
  .mk appStyleSheet .component b zeroPlacement cs

/-- The placement `{{0,10},{0,10},{0.5,0},{0,90}}` of the concrete scenario. -/
def scenarioPlacement : Placement := ⟨⟨0, 10⟩, ⟨0, 10⟩, ⟨1/2, 0⟩, ⟨0, 90⟩⟩

/-- A rectangle with the same minimum corner and its size scaled by `k` on both axes. -/
def Rect.scaleSize (r : Rect) (k : ℚ) : Rect :=
  { x0 := r.x0, y0 := r.y0, x1 := r.x0 + k * r.width, y1 := r.y0 + k * r.height }

/-- A surface with the given root node. -/
def surfaceOf (root : UIComponent) : UISurface :=
  { nvg := 0, text_fontface := 1, icon_fontface := 2, root := root, stylesheet := appStyleSheet }

/-- A cursor event at the given position. -/
def cursorAt (x y : ℚ) : InputEvent := { type := .CURSOR, cursor := (x, y) }

/-- A root of 100x100 with two overlapping children, `(0,0)-(10,10)` and
`(0,0)-(20,20)`. -/
def overlapTree : UIComponent :=
  plainNode ⟨0, 0, 100, 100⟩ [plainNode ⟨0, 0, 10, 10⟩ [], plainNode ⟨0, 0, 20, 20⟩ []]

/-- A root of 100x100 with one child placed at `(0,0)-(10,10)` whose own child
is placed, by pixel offsets, at `(50,50)-(60,60)`: entirely outside its parent. -/
def outsideTree : UIComponent :=
  (UIComponent.add_child (plainNode ⟨0, 0, 100, 100⟩ []) ⟨⟨0, 0⟩, ⟨0, 0⟩, ⟨0, 10⟩, ⟨0, 10⟩⟩
    (UIComponent.add_child (plainNode ⟨0, 0, 0, 0⟩ []) ⟨⟨0, 50⟩, ⟨0, 50⟩, ⟨0, 60⟩, ⟨0, 60⟩⟩
      (plainNode ⟨0, 0, 0, 0⟩ []))).layout

/-- A root with a child that has two children of its own, followed by a second child. -/
def threeLevelTree : UIComponent :=
  plainNode ⟨0, 0, 100, 100⟩
    [plainNode ⟨0, 0, 50, 50⟩ [plainNode ⟨0, 0, 10, 10⟩ [], plainNode ⟨10, 10, 20, 20⟩ []],
     plainNode ⟨50, 50, 100, 100⟩ []]

/-! ## Widgets: constructors, hooks and surface factories -/

/-- Something a hook does besides touching the node: a text or a stroked
rectangle sent to the drawing context, or a cursor position written to the
console. -/
inductive Effect where
  | nvgText (font : Nat) (color : NVGcolor) (text : String) : Effect
  | nvgStroke (x y w h : ℚ) (color : NVGcolor) : Effect
  | print (cursor : ℚ × ℚ) : Effect
deriving DecidableEq, Repr

/-- Whether the class of the widget declares `virtual void render(...) override`:
`LabelControl`, `ButtonControl` and `SliderControl` all do. -/
def Control.overridesRender : Control → Bool
  | .component => false
  | .label _ => true
  | .button _ _ _ => true
  | .slider _ _ _ => true

/-- Whether the class of the widget declares `virtual void input(...) override`:
only `LabelControl` does; `ButtonControl` and `SliderControl` declare no
`input` and inherit the one of `UIComponent`. -/
def Control.overridesInput : Control → Bool
  | .component => false
  | .label _ => true
  | .button _ _ _ => false
  | .slider _ _ _ => false

/-- The render hook `control->render(e)`, by class: the node after the call and
what was sent to the drawing context.  `LabelControl::render` draws the text
in `style.textColor`; `ButtonControl::render` draws the text, strokes the
bounds once more when `hover` is set, and strokes the bounds;
`SliderControl::render` strokes the bounds.  None of them assigns a member.
The hook of the base class is in the missing widget header and is modelled
from the spec as doing nothing. -/
def UIComponent.renderHook (e : UIRenderEvent) : UIComponent → UIComponent × List Effect
  | .mk s .component b p cs => (.mk s .component b p cs, [])
  | .mk s (.label text) b p cs =>
    (.mk s (.label text) b p cs, [.nvgText e.text s.textColor text])
  | .mk s (.button value hover text) b p cs =>
    (.mk s (.button value hover text) b p cs,
      [.nvgText e.text s.textColor text] ++
        (if hover then [.nvgStroke b.x0 b.y0 b.width b.height s.borderColor] else []) ++
        [.nvgStroke b.x0 b.y0 b.width b.height s.borderColor])
  | .mk s (.slider min max value) b p cs =>
    (.mk s (.slider min max value) b p cs,
      [.nvgStroke b.x0 b.y0 b.width b.height s.borderColor])

/-- The input hook `control->input(e)`, by class: the node after the call and
what was written out.  `LabelControl::input` prints the cursor position.
`ButtonControl` and `SliderControl` have no `input` of their own, so the call
reaches the hook of the base class, which is in the missing widget header
and is modelled from the spec as doing nothing. -/
def UIComponent.inputHook (e : InputEvent) : UIComponent → UIComponent × List Effect
  | .mk s .component b p cs => (.mk s .component b p cs, [])
  | .mk s (.label text) b p cs => (.mk s (.label text) b p cs, [.print e.cursor])
  | .mk s (.button value hover text) b p cs => (.mk s (.button value hover text) b p cs, [])
  | .mk s (.slider min max value) b p cs => (.mk s (.slider min max value) b p cs, [])

mutual
/-- The tree under `control` after `UISurface::input(e, control)`: when the
cursor is inside the bounds, the node as its input hook leaves it, with each
of the children it then has treated the same way; otherwise the node as it is. -/
def inputTree (e : InputEvent) (control : UIComponent) : UIComponent :=
  if control.bounds.inside e.cursor then
    match h : (control.inputHook e).1 with
    | .mk s k b p cs => .mk s k b p (inputTreeChildren e cs)
  else control
termination_by sizeOf control
decreasing_by
  have hk : (control.inputHook e).1 = control := by
    cases control with
    | mk s k b p cs => cases k <;> rfl
  rw [hk] at h
  subst h
  simp
/-- The children after the loop of `UISurface::input` over them. -/
def inputTreeChildren (e : InputEvent) (cs : List UIComponent) : List UIComponent :=
  match cs with
  | [] => []
  | c :: rest => inputTree e c :: inputTreeChildren e rest
termination_by sizeOf cs
decreasing_by
  all_goals simp
  all_goals omega
end

mutual
/-- The tree under `control` after `UISurface::render(e, control)`, with the
context as the call leaves it: the node as its render hook leaves it, with
each of the children it then has rendered in turn. -/
def renderTree (e : UIRenderEvent) (path : Path) (control : UIComponent) :
    UIComponent × UIRenderEvent :=
  match h : (control.renderHook e).1 with
  | .mk s k b p cs =>
    let r := renderTreeChildren e path 0 cs
    (.mk s k b p r.1, r.2)
termination_by sizeOf control
decreasing_by
  have hk : (control.renderHook e).1 = control := by
    cases control with
    | mk s k b p cs => cases k <;> rfl
  rw [hk] at h
  subst h
  simp
/-- The children after the loop of `UISurface::render` over them, with the
context as the loop leaves it. -/
def renderTreeChildren (e : UIRenderEvent) (path : Path) (i : Nat) (cs : List UIComponent) :
    List UIComponent × UIRenderEvent :=
  match cs with
  | [] => ([], e)
  | c :: rest =>
    let r1 := renderTree { e with parent := path } (path ++ [i]) c
    let r2 := renderTreeChildren r1.2 path (i + 1) rest
    (r1.1 :: r2.1, r2.2)
termination_by sizeOf cs
decreasing_by
  all_goals simp
  all_goals omega
end

/-- The surface after `UISurface::handle_input(event)`: only the tree under the
root can have changed. -/
def UISurface.afterInput (s : UISurface) (event : InputEvent) : UISurface :=
  { s with root := inputTree event s.root }

/-- The surface after `UISurface::draw(window)`: only the tree under the root
can have changed. -/
def UISurface.afterDraw (s : UISurface) : UISurface :=
  let e : UIRenderEvent :=
    { ctx := s.nvg, parent := [], text := s.text_fontface, icon := s.icon_fontface }
  { s with root := (renderTree e [] s.root).1 }

/-- Modelled from the spec: the constructor `UIComponent(ss)` of the missing
widget header.  The style is assigned at construction and the node has no
children; its bounds and placement are not set yet and are taken as zero. -/
def UIComponent.make (ss : UIStyleSheet) : UIComponent :=
  .mk ss .component ⟨0, 0, 0, 0⟩ zeroPlacement []

/-- Constructor `LabelControl(ss) : UIComponent(ss)`: a label with empty text. -/
def LabelControl (ss : UIStyleSheet) : UIComponent :=
  .mk ss (.label "") ⟨0, 0, 0, 0⟩ zeroPlacement []

/-- Constructor `ButtonControl(ss) : UIComponent(ss)`: `hover = false`, empty
text, no variable bound yet. -/
def ButtonControl (ss : UIStyleSheet) : UIComponent :=
  .mk ss (.button none false "") ⟨0, 0, 0, 0⟩ zeroPlacement []

/-- Constructor `SliderControl(ss) : UIComponent(ss)`: no variable bound yet;
the range is not set yet and is taken as zero. -/
def SliderControl (ss : UIStyleSheet) : UIComponent :=
  .mk ss (.slider 0 0 none) ⟨0, 0, 0, 0⟩ zeroPlacement []

/-- Method `set_text(t)` of `LabelControl` and `ButtonControl`: `text = t`. -/
def UIComponent.set_text (t : String) : UIComponent → UIComponent
  | .mk s (.label _) b p cs => .mk s (.label t) b p cs
  | .mk s (.button value hover _) b p cs => .mk s (.button value hover t) b p cs
  | n => n

/-- Method `set_variable(v)` of `ButtonControl` and `SliderControl`: `value = &v`. -/
def UIComponent.set_variable (v : Nat) : UIComponent → UIComponent
  | .mk s (.button _ hover text) b p cs => .mk s (.button (some v) hover text) b p cs
  | .mk s (.slider min max _) b p cs => .mk s (.slider min max (some v)) b p cs
  | n => n

/-- Method `set_range(min, max)` of `SliderControl`. -/
def UIComponent.set_range (min max : ℚ) : UIComponent → UIComponent
  | .mk s (.slider _ _ value) b p cs => .mk s (.slider min max value) b p cs
  | n => n

/-- Constructor `UISurface(width, height, text_font, icon_font)`.  `ctx` is what
`make_nanovg_context` returns (`none` for a null pointer, on which the
constructor throws), `dflt` is the default-constructed `UIStyleSheet` member,
and the fonts are given as the handles they load to.  The root is
`UIComponent(stylesheet)` with `bounds = {0, 0, width, height}`. -/
def UISurface.make (dflt : UIStyleSheet) (ctx : Option Nat) (width height : ℚ)
    (text_font icon_font : Nat) : Except String UISurface :=
  match ctx with
  | none => .error "error initializing nanovg context"
  | some nvg =>
    match UIComponent.make dflt with
    | .mk s k _ p cs =>
      .ok { nvg := nvg, text_fontface := text_font, icon_fontface := icon_font,
            root := .mk s k ⟨0, 0, width, height⟩ p cs, stylesheet := dflt }

/-- Method `get_root()`. -/
def UISurface.get_root (s : UISurface) : UIComponent := s.root

/-- Method `set_root_stylesheet(ss)`: `stylesheet = ss`. -/
def UISurface.set_root_stylesheet (s : UISurface) (ss : UIStyleSheet) : UISurface :=
  { s with stylesheet := ss }

/-- Method `make_label(text)`: a `LabelControl(stylesheet)` with the text set. -/
def UISurface.make_label (s : UISurface) (text : String) : UIComponent :=
  (LabelControl s.stylesheet).set_text text

/-- Method `make_button(text, variable)`: a `ButtonControl(stylesheet)` with the
text set and the variable bound. -/
def UISurface.make_button (s : UISurface) (text : String) (v : Nat) : UIComponent :=
  ((ButtonControl s.stylesheet).set_text text).set_variable v

/-- Method `make_slider(min, max, variable)`: a `SliderControl(stylesheet)` with
the range set and the variable bound. -/
def UISurface.make_slider (s : UISurface) (min max : ℚ) (v : Nat) : UIComponent :=
  ((SliderControl s.stylesheet).set_range min max).set_variable v

mutual
/-- The same tree with the bounds of every node replaced: the node at path `q`
gets the bounds `g q`.  Style, widget members, placement and children
structure are kept. -/
def withBounds (g : Path → Rect) (path : Path) : UIComponent → UIComponent
  | .mk s k _ p cs => .mk s k (g path) p (withBoundsChildren g path 0 cs)
/-- The children with their bounds replaced; `i` is the index of the first
child of the list. -/
def withBoundsChildren (g : Path → Rect) (path : Path) (i : Nat) :
    List UIComponent → List UIComponent
  | [] => []
  | c :: rest => withBounds g (path ++ [i]) c :: withBoundsChildren g path (i + 1) rest
end

/-- Three overlapping placements, in the order the three siblings are added:
the whole parent, the parent shrunk by 10 pixels, and the parent from 20
pixels on. -/
def siblingPlacements : Placement × Placement × Placement :=
  (⟨⟨0, 0⟩, ⟨0, 0⟩, ⟨1, 0⟩, ⟨1, 0⟩⟩,
   ⟨⟨0, 10⟩, ⟨0, 10⟩, ⟨1, -10⟩, ⟨1, -10⟩⟩,
   ⟨⟨0, 20⟩, ⟨0, 20⟩, ⟨1, 0⟩, ⟨1, 0⟩⟩)

/-- A root of 100x100 to which three overlapping siblings are added in order with
`add_child` and which is then laid out. -/
def siblingsTree : UIComponent :=
  (((UIComponent.add_child (plainNode ⟨0, 0, 100, 100⟩ []) siblingPlacements.1
      (plainNode ⟨0, 0, 0, 0⟩ [])).add_child siblingPlacements.2.1
      (plainNode ⟨0, 0, 0, 0⟩ [])).add_child siblingPlacements.2.2
      (plainNode ⟨0, 0, 0, 0⟩ [])).layout

/-- A button as the surface factory makes it, placed at `(0,0)-(100,40)`. -/
def exampleButton : UIComponent :=
  .mk appStyleSheet (.button (some 0) false "button") ⟨0, 0, 100, 40⟩ zeroPlacement []

/-- A slider as the surface factory makes it, placed at `(0,0)-(100,40)`. -/
def exampleSlider : UIComponent :=
  .mk appStyleSheet (.slider 0 1 (some 0)) ⟨0, 0, 100, 40⟩ zeroPlacement []

/-! ## Euclidean rhythm (`make_euclidean_rhythm`) and the pattern rotation -/

/-- What stops a run of the model of `make_euclidean_rhythm` short of a result:
an index outside a vector, a division or modulo by zero, or the iteration
budget given to the `while (true)` loop being used up. -/
inductive Fault where
  | outOfRange
  | divisionByZero
  | outOfFuel
deriving DecidableEq, Repr

/-- Element access `v[i]` on a `std::vector<int>` with an `int` index: a fault
when the index is negative or not below the size. -/
def vectorAt (v : List Int) (i : Int) : Except Fault Int :=
  if i < 0 then .error .outOfRange
  else
    match v[i.toNat]? with
    | some x => .ok x
    | none => .error .outOfRange

/-- Division `a / b` on `int` (truncating): a fault when the divisor is zero. -/
def intDiv (a b : Int) : Except Fault Int :=
  if b = 0 then .error .divisionByZero else .ok (a.tdiv b)

/-- Modulo `a % b` on `int` (truncating): a fault when the divisor is zero. -/
def intMod (a b : Int) : Except Fault Int :=
  if b = 0 then .error .divisionByZero else .ok (a.tmod b)

/-- The loop `for (int i = 0; i < n; ++i) body` on the pattern built so far. -/
def repeatCall : Nat → (List Bool → Except Fault (List Bool)) → List Bool →
    Except Fault (List Bool)
  | 0, _, pattern => .ok pattern
  | n + 1, body, pattern =>
    match body pattern with
    | .ok pattern1 => repeatCall n body pattern1
    | .error f => .error f

/-- The recursive lambda `bjorklund(level, r, pattern, counts, remainders)`; the
result is the pattern after the call.  For `level > -1` it calls itself
`counts[level]` times at `level - 1` and, when `remainders[level] != 0`, once
at `level - 2`; at `level == -1` it appends `false`, at `level == -2` it
appends `true`.  The depth counter `r` is only incremented and never read, so
it is left out. -/
def bjorklund (counts remainders : List Int) (level : Int) (pattern : List Bool) :
    Except Fault (List Bool) :=
  if level > -1 then
    match vectorAt counts level with
    | .error f => .error f
    | .ok c =>
      match repeatCall c.toNat (fun p => bjorklund counts remainders (level - 1) p) pattern with
      | .error f => .error f
      | .ok pattern1 =>
        match vectorAt remainders level with
        | .error f => .error f
        | .ok r =>
          if r ≠ 0 then bjorklund counts remainders (level - 2) pattern1 else .ok pattern1
  else if level = -1 then .ok (pattern ++ [false])
  else if level = -2 then .ok (pattern ++ [true])
  else .ok pattern
termination_by (level + 2).toNat
decreasing_by
  all_goals simp_wf
  all_goals omega

/-- The `while (true)` loop of `make_euclidean_rhythm` on the state
`(counts, remainders, divisor, level)`, run for at most `fuel` iterations:
`counts.push_back(divisor / remainders[level])`,
`remainders.push_back(divisor % remainders[level])`,
`divisor = remainders[level]`, `level++`, and `break` when
`remainders[level] <= 1`. -/
def euclidLoop : Nat → List Int → List Int → Int → Int →
    Except Fault (List Int × List Int × Int × Int)
  | 0, _, _, _, _ => .error .outOfFuel
  | fuel + 1, counts, remainders, divisor, level =>
    match vectorAt remainders level with
    | .error f => .error f
    | .ok r1 =>
      match intDiv divisor r1 with
      | .error f => .error f
      | .ok q =>
        match vectorAt remainders level with
        | .error f => .error f
        | .ok r2 =>
          match intMod divisor r2 with
          | .error f => .error f
          | .ok m =>
            match vectorAt (remainders ++ [m]) level with
            | .error f => .error f
            | .ok divisor1 =>
              match vectorAt (remainders ++ [m]) (level + 1) with
              | .error f => .error f
              | .ok r3 =>
                if r3 ≤ 1 then .ok (counts ++ [q], remainders ++ [m], divisor1, level + 1)
                else euclidLoop fuel (counts ++ [q]) (remainders ++ [m]) divisor1 (level + 1)

/-- Function `make_euclidean_rhythm(steps, pulses)`, with `fuel` bounding the
iterations of its `while (true)` loop: the empty pattern when
`pulses > steps || pulses == 0 || steps == 0`; otherwise the loop is run from
`remainders = [pulses]`, `divisor = steps - pulses`, `level = 0`, the final
`divisor` is pushed onto `counts`, and `bjorklund(level, ...)` fills the
pattern. -/
def make_euclidean_rhythm (fuel : Nat) (steps pulses : Int) : Except Fault (List Bool) :=
  if pulses > steps ∨ pulses = 0 ∨ steps = 0 then .ok []
  else
    match euclidLoop fuel [] [pulses] (steps - pulses) 0 with
    | .error f => .error f
    | .ok (counts, remainders, divisor, level) =>
      bjorklund (counts ++ [divisor]) remainders level []

/-- Library function `std::rotate(first, middle, last)` on a whole sequence: the
element at position `middle` becomes the first, the elements before it follow
at the end. -/
def std_rotate {α : Type} (s : List α) (middle : Nat) : List α :=
  s.drop middle ++ s.take middle

/-- The statement commented `Rotate right`:
`std::rotate(p.rbegin(), p.rbegin() + 1, p.rend())`, a rotation of the
reversed view of the pattern about its second position. -/
def rotate_right {α : Type} (pattern : List α) : List α :=
  (std_rotate pattern.reverse 1).reverse

/-- The pattern that `bjorklund` appends when called at level `n - 2`, as a
plain function of the two vectors (missing entries read as zero). -/
def word (counts remainders : List Int) : Nat → List Bool
  | 0 => [true]
  | 1 => [false]
  | n + 2 =>
    (List.replicate (counts.getD n 0).toNat (word counts remainders (n + 1))).flatten ++
      (if remainders.getD n 0 ≠ 0 then word counts remainders n else [])

/-- The pattern made of the given blocks, a block `b` being `b` times `false`
followed by one `true`. -/
def flat : List Nat → List Bool
  | [] => []
  | b :: bs => List.replicate b false ++ true :: flat bs

/-- A pattern that consists of blocks of `c` or, when `two` holds, `c + 1` times
`false` followed by `true`, the first block being of `c`, with at most one
more `false` at the end (none unless `two` holds). -/
def Blocks (c : Nat) (two : Prop) (w : List Bool) : Prop :=
  ∃ (bs : List Nat) (t : Nat), w = flat bs ++ List.replicate t false ∧
    bs.head? = some c ∧ (∀ b ∈ bs, b = c ∨ (two ∧ b = c + 1)) ∧ (t = 0 ∨ (two ∧ t = 1))

/-! ## The sphere mesh of `main.cpp` -/

/-- Three floats (`float3`). -/
abbrev Float3 := ℚ × ℚ × ℚ

/-- The mesh data filled by `make_sphere_mesh` (`Geometry`): vertices, normals
and triangles given by three vertex indices (`uint3`). -/
structure Geometry where
  vertices : List Float3
  normals : List Float3
  faces : List (Nat × Nat × Nat)

/-- Function `make_sphere_mesh(radius)` up to the hand-over to the graphics
library, with `U = V = 16`.  The direction function `spherical` and the
constant `ANVIL_PI` come from headers that are not among the source files and
are parameters.  The first pair of loops pushes one vertex and one normal
per `(ui, vi)`; the second pushes two triangles per `(ui, vi)` with
`un = (ui + 1) % U` and `vn = (vi + 1) % V`.  The `uint32_t` index arithmetic
is taken modulo `2^32`. -/
def make_sphere_mesh (spherical : ℚ → ℚ → Float3) (pi : ℚ) (radius : ℚ) : Geometry :=
  let U : Nat := 16
  let V : Nat := 16
  let normal : Nat → Nat → Float3 := fun ui vi =>
    spherical ((ui : ℚ) / ((U : ℚ) - 1) * pi) ((vi : ℚ) / ((V : ℚ) - 1) * 2 * pi)
  { vertices := (List.range U).flatMap fun ui => (List.range V).map fun vi =>
      ((normal ui vi).1 * radius, (normal ui vi).2.1 * radius, (normal ui vi).2.2 * radius)
    normals := (List.range U).flatMap fun ui => (List.range V).map fun vi => normal ui vi
    faces := (List.range U).flatMap fun ui => (List.range V).flatMap fun vi =>
      let un := (ui + 1) % U
      let vn := (vi + 1) % V
      [((ui * V + vi) % 2 ^ 32, (un * V + vi) % 2 ^ 32, (un * V + vn) % 2 ^ 32),
       ((ui * V + vi) % 2 ^ 32, (un * V + vn) % 2 ^ 32, (ui * V + vn) % 2 ^ 32)] }

/-! ## The user interface of the Euclidean application -/

/-- The placement `{{0,+10},{0,+10},{0.25,0},{0.0,+90}}` of the label. -/
def labelPlacement : Placement := ⟨⟨0, 10⟩, ⟨0, 10⟩, ⟨1/4, 0⟩, ⟨0, 90⟩⟩

/-- The placement `{{.25,+10},{0,+10},{0.50,-10},{0.0,+90}}` of the button. -/
def buttonPlacement : Placement := ⟨⟨1/4, 10⟩, ⟨0, 10⟩, ⟨1/2, -10⟩, ⟨0, 90⟩⟩

/-- The user interface set up by the constructor of the Euclidean application
(`euclidean_app.hpp`, lines 290-304) on a surface of the window size: the
style sheet is set, a label and a button are made and added to the root with
their placements, and the root is laid out.  `btnState` is variable number 0. -/
def euclideanAppUI (dflt : UIStyleSheet) (ctx : Option Nat) (width height : ℚ)
    (font : Nat) : Except String UISurface :=
  match UISurface.make dflt ctx width height font font with
  | .error msg => .error msg
  | .ok ui0 =>
    let ui := ui0.set_root_stylesheet appStyleSheet
    let label := ui.make_label "A label is me"
    let button := ui.make_button "I\x27m a button" 0
    .ok { ui with
      root := ((ui.get_root.add_child labelPlacement label).add_child buttonPlacement
        button).layout }

/-! ## Placement resolution in single precision

The C++ `float` type is the IEEE 754 binary32 format: 24 significant binary
digits, least exponent `-126`, results rounded to the nearest value with ties
going to the even significand.  The definitions below round a rational to
that format and evaluate the resolution formula with every operation rounded.
Overflow to infinity is not modelled (the exponent is unbounded above);
the values used below are far from that range. -/

/-- The power of two `2 ^ e` as a rational, for any integer exponent. -/
def pow2 (e : Int) : ℚ :=
  if 0 ≤ e then ((2 ^ e.toNat : Nat) : ℚ) else mkRat 1 (2 ^ (-e).toNat)

/-- Number of binary digits of `n` (`0` for `0`), found by halving; `fuel`
bounds the number of halvings and `n` itself is always enough. -/
def bitLength : Nat → Nat → Nat
  | 0, _ => 0
  | fuel + 1, n => if n = 0 then 0 else bitLength fuel (n / 2) + 1

/-- The binary exponent of a non-zero rational: the `e` with
`2 ^ e ≤ |q| < 2 ^ (e + 1)`.  The difference of the digit counts of numerator
and denominator is either `e` or `e + 1`. -/
def floorLog2 (q : ℚ) : Int :=
  let e0 : Int := (bitLength q.num.natAbs q.num.natAbs : Int) - (bitLength q.den q.den : Int)
  if pow2 e0 ≤ |q| then e0 else e0 - 1

/-- Rounding of a rational to the nearest integer, a tie going to the even one. -/
def roundNearestEven (x : ℚ) : Int :=
  let f : Int := x.floor
  let r : ℚ := x - f
  if 2 * r < 1 then f
  else if 1 < 2 * r then f + 1
  else if f % 2 = 0 then f else f + 1

/-- Rounding of a rational to the nearest binary32 value (`float`), ties to
even: the value is scaled so that one unit is the spacing of binary32 values
at its exponent (exponents below `-126` share the spacing of `-126`, the
subnormal range), rounded to an integer and scaled back. -/
def roundFloat (q : ℚ) : ℚ :=
  if q = 0 then 0
  else
    let e : Int := max (floorLog2 q) (-126)
    (roundNearestEven (q * pow2 (23 - e)) : ℚ) * pow2 (e - 23)

/-- Addition of `float` values: the exact sum, rounded. -/
def floatAdd (a b : ℚ) : ℚ := roundFloat (a + b)

/-- Subtraction of `float` values: the exact difference, rounded. -/
def floatSub (a b : ℚ) : ℚ := roundFloat (a - b)

/-- Multiplication of `float` values: the exact product, rounded. -/
def floatMul (a b : ℚ) : ℚ := roundFloat (a * b)

/-- Width of a rectangle (`bounds.width()`) computed in `float`. -/
def Rect.widthFloat (r : Rect) : ℚ := floatSub r.x1 r.x0

/-- Height of a rectangle (`bounds.height()`) computed in `float`. -/
def Rect.heightFloat (r : Rect) : ℚ := floatSub r.y1 r.y0

/-- Modelled from the spec: the placement resolution of the missing widget
header evaluated on `float` fields, as the spec types them: the formula of
`resolve`, `parent.min + fraction * parent.size + offset`, read left to right
with the size, the product and each sum rounded to binary32. -/
def resolveFloat (parent : Rect) (pl : Placement) : Rect :=
  { x0 := floatAdd (floatAdd parent.x0 (floatMul pl.x0.fraction parent.widthFloat)) pl.x0.offset
    y0 := floatAdd (floatAdd parent.y0 (floatMul pl.y0.fraction parent.heightFloat)) pl.y0.offset
    x1 := floatAdd (floatAdd parent.x0 (floatMul pl.x1.fraction parent.widthFloat)) pl.x1.offset
    y1 := floatAdd (floatAdd parent.y0 (floatMul pl.y1.fraction parent.heightFloat)) pl.y1.offset }

/-- A parent rectangle of 800x600 at the origin. -/
def floatParent : Rect := ⟨0, 0, 800, 600⟩

/-- The placement `{{0.1f,0},{0,0},{0.3f,0},{1,0}}`: all four offsets are zero
and the x fractions are the `float` values of the literals `0.1f` and `0.3f`. -/
def floatPlacement : Placement :=
  ⟨⟨roundFloat (1/10), 0⟩, ⟨0, 0⟩, ⟨roundFloat (3/10), 0⟩, ⟨1, 0⟩⟩

/-! ## Basic facts about the tree operations -/

theorem layoutChildren_eq_map (b : Rect) (cs : List UIComponent) :
    layoutChildren b cs = cs.map (layoutChild b) := by
  induction cs with
  | nil => simp [layoutChildren]
  | cons c rest ih => simp [layoutChildren, ih]

theorem layoutChildren_getElem? (b : Rect) (cs : List UIComponent) (i : Nat) :
    (layoutChildren b cs)[i]? = (cs[i]?).map (layoutChild b) := by
  simp [layoutChildren_eq_map]

theorem nodeAt_append (t : UIComponent) (p q : Path) :
    t.nodeAt (p ++ q) = (t.nodeAt p).bind (fun n => n.nodeAt q) := by
  induction p generalizing t with
  | nil => simp [UIComponent.nodeAt]
  | cons i p ih =>
    cases t with
    | mk s k b pl cs =>
      simp only [List.cons_append, UIComponent.nodeAt]
      cases h : cs[i]? with
      | none => simp
      | some c => simpa using ih c

theorem nodeAt_singleton (t : UIComponent) (i : Nat) :
    t.nodeAt [i] = t.children[i]? := by
  cases t with
  | mk s k b pl cs =>
    simp only [UIComponent.nodeAt, UIComponent.children]
    cases cs[i]? <;> rfl

/-- A node of the tree, after its parent has been laid out against `pb`, is
the same node with some bounds `b` and with its children laid out against `b`. -/
theorem layoutChild_nodeAt (q : Path) : ∀ (pb : Rect) (c m0 : UIComponent),
    c.nodeAt q = some m0 →
    ∃ b, (layoutChild pb c).nodeAt q =
      some (.mk m0.style m0.control b m0.placement (layoutChildren b m0.children)) := by
  induction q with
  | nil =>
    intro pb c m0 h
    cases c with
    | mk s k b0 pl cs =>
      simp only [UIComponent.nodeAt, Option.some.injEq] at h
      subst h
      exact ⟨resolve pb pl, by simp [layoutChild, UIComponent.nodeAt, UIComponent.style,
        UIComponent.control, UIComponent.placement, UIComponent.children]⟩
  | cons i q ih =>
    intro pb c m0 h
    cases c with
    | mk s k b0 pl cs =>
      simp only [UIComponent.nodeAt] at h
      cases hc : cs[i]? with
      | none => simp [hc] at h
      | some d =>
        simp only [hc] at h
        obtain ⟨b, hb⟩ := ih (resolve pb pl) d m0 h
        refine ⟨b, ?_⟩
        simp only [layoutChild, UIComponent.nodeAt, layoutChildren_getElem?, hc, Option.map_some']
        exact hb

theorem layout_nodeAt (q : Path) (t m0 : UIComponent) (h : t.nodeAt q = some m0) :
    ∃ b, t.layout.nodeAt q =
      some (.mk m0.style m0.control b m0.placement (layoutChildren b m0.children)) := by
  cases q with
  | nil =>
    cases t with
    | mk s k b0 pl cs =>
      simp only [UIComponent.nodeAt, Option.some.injEq] at h
      subst h
      exact ⟨b0, by simp [UIComponent.layout, UIComponent.nodeAt, UIComponent.style,
        UIComponent.control, UIComponent.placement, UIComponent.children]⟩
  | cons i q =>
    cases t with
    | mk s k b0 pl cs =>
      simp only [UIComponent.nodeAt] at h
      cases hc : cs[i]? with
      | none => simp [hc] at h
      | some d =>
        simp only [hc] at h
        obtain ⟨b, hb⟩ := layoutChild_nodeAt q b0 d m0 h
        refine ⟨b, ?_⟩
        simp only [UIComponent.layout, UIComponent.nodeAt, layoutChildren_getElem?, hc,
          Option.map_some']
        exact hb

mutual
theorem layoutChild_idem (b : Rect) : ∀ c : UIComponent,
    layoutChild b (layoutChild b c) = layoutChild b c
  | .mk s k _ p cs => by
    simp [layoutChild, layoutChildren_idem (resolve b p) cs]
theorem layoutChildren_idem (b : Rect) : ∀ cs : List UIComponent,
    layoutChildren b (layoutChildren b cs) = layoutChildren b cs
  | [] => by simp [layoutChildren]
  | c :: rest => by
    simp [layoutChildren, layoutChild_idem b c, layoutChildren_idem b rest]
end

/-! ## Facts about the pre-order listing -/

theorem child_index_unique {path q : Path} {i j : Nat}
    (hi : path ++ [i] <+: q) (hj : path ++ [j] <+: q) : i = j := by
  have h := List.prefix_of_prefix_length_le hi hj (by simp)
  rw [List.prefix_append_right_inj] at h
  simpa using h

theorem not_child_prefix_self (path : Path) (j : Nat) : ¬ (path ++ [j] <+: path) := by
  intro h
  have := h.length_le
  simp at this

mutual
theorem preorder_prefix (path : Path) : ∀ (t : UIComponent) (q : Path),
    q ∈ preorder path t → path <+: q
  | .mk _ _ _ _ cs, q, h => by
    simp only [preorder, List.mem_cons] at h
    rcases h with rfl | h
    · exact List.prefix_refl _
    · obtain ⟨j, _, hj⟩ := preorderChildren_prefix path 0 cs q h
      exact (List.prefix_append path [j]).trans hj
theorem preorderChildren_prefix (path : Path) (i : Nat) : ∀ (cs : List UIComponent) (q : Path),
    q ∈ preorderChildren path i cs → ∃ j, i ≤ j ∧ path ++ [j] <+: q
  | [], q, h => by simp [preorderChildren] at h
  | c :: rest, q, h => by
    simp only [preorderChildren, List.mem_append] at h
    rcases h with h | h
    · exact ⟨i, le_refl _, preorder_prefix (path ++ [i]) c q h⟩
    · obtain ⟨j, hij, hj⟩ := preorderChildren_prefix path (i + 1) rest q h
      exact ⟨j, by omega, hj⟩
end

theorem self_not_mem_preorderChildren (path : Path) (i : Nat) (cs : List UIComponent) :
    path ∉ preorderChildren path i cs := by
  intro h
  obtain ⟨j, _, hj⟩ := preorderChildren_prefix path i cs path h
  exact not_child_prefix_self path j hj

theorem preorder_disjoint (path : Path) (i : Nat) (c : UIComponent) (rest : List UIComponent)
    (q : Path) (h1 : q ∈ preorder (path ++ [i]) c)
    (h2 : q ∈ preorderChildren path (i + 1) rest) : False := by
  have hi := preorder_prefix (path ++ [i]) c q h1
  obtain ⟨j, hij, hj⟩ := preorderChildren_prefix path (i + 1) rest q h2
  have := child_index_unique hi hj
  omega

mutual
theorem preorder_nodup (path : Path) : ∀ t : UIComponent, (preorder path t).Nodup
  | .mk _ _ _ _ cs => by
    simp only [preorder, List.nodup_cons]
    exact ⟨self_not_mem_preorderChildren path 0 cs, preorderChildren_nodup path 0 cs⟩
theorem preorderChildren_nodup (path : Path) (i : Nat) :
    ∀ cs : List UIComponent, (preorderChildren path i cs).Nodup
  | [] => by simp [preorderChildren]
  | c :: rest => by
    simp only [preorderChildren]
    rw [List.nodup_append]
    exact ⟨preorder_nodup (path ++ [i]) c, preorderChildren_nodup path (i + 1) rest,
      fun q h1 h2 => preorder_disjoint path i c rest q h1 h2⟩
end

mutual
theorem preorder_sublist_pair (path : Path) : ∀ (t : UIComponent) (p q : Path),
    p ∈ preorder path t → q ∈ preorder path t → p <+: q → p ≠ q →
    [p, q].Sublist (preorder path t)
  | .mk _ _ _ _ cs, p, q, hp, hq, hpq, hne => by
    simp only [preorder, List.mem_cons] at hp hq ⊢
    rcases hp with rfl | hp
    · rcases hq with rfl | hq
      · exact absurd rfl hne
      · exact (List.singleton_sublist.mpr hq).cons₂ _
    · rcases hq with rfl | hq
      · obtain ⟨j, _, hj⟩ := preorderChildren_prefix q 0 cs p hp
        exact absurd (hj.trans hpq) (not_child_prefix_self q j)
      · exact (preorderChildren_sublist_pair path 0 cs p q hp hq hpq hne).cons _
theorem preorderChildren_sublist_pair (path : Path) (i : Nat) :
    ∀ (cs : List UIComponent) (p q : Path),
    p ∈ preorderChildren path i cs → q ∈ preorderChildren path i cs → p <+: q → p ≠ q →
    [p, q].Sublist (preorderChildren path i cs)
  | [], p, q, hp, _, _, _ => by simp [preorderChildren] at hp
  | c :: rest, p, q, hp, hq, hpq, hne => by
    simp only [preorderChildren, List.mem_append] at hp hq ⊢
    rcases hp with hp1 | hp2
    · rcases hq with hq1 | hq2
      · exact (preorder_sublist_pair (path ++ [i]) c p q hp1 hq1 hpq hne).trans
          (List.sublist_append_left _ _)
      · exact (List.singleton_sublist.mpr hp1).append (List.singleton_sublist.mpr hq2)
    · rcases hq with hq1 | hq2
      · exfalso
        obtain ⟨j, hij, hj⟩ := preorderChildren_prefix path (i + 1) rest p hp2
        have hi := preorder_prefix (path ++ [i]) c q hq1
        have := child_index_unique hi (hj.trans hpq)
        omega
      · exact (preorderChildren_sublist_pair path (i + 1) rest p q hp2 hq2 hpq hne).trans
          (List.sublist_append_right _ _)
end

/-- A two-element sublist gives two positions in increasing order. -/
theorem positions_of_sublist_pair {α : Type} (a b : α) : ∀ l : List α, [a, b].Sublist l →
    ∃ i j : Nat, i < j ∧ l[i]? = some a ∧ l[j]? = some b := by
  intro l
  induction l with
  | nil => intro h; cases h
  | cons x l ih =>
    intro h
    cases h with
    | cons _ h' =>
      obtain ⟨i, j, hij, hi, hj⟩ := ih h'
      exact ⟨i + 1, j + 1, by omega, by simpa using hi, by simpa using hj⟩
    | cons₂ _ h' =>
      obtain ⟨j, hj⟩ := List.mem_iff_getElem?.mp (List.singleton_sublist.mp h')
      exact ⟨0, j + 1, by omega, by simp, by simpa using hj⟩

theorem mem_preorderChildren (path : Path) (q : Path) (cs : List UIComponent) : ∀ i : Nat,
    q ∈ preorderChildren path i cs ↔
      ∃ j c, cs[j]? = some c ∧ q ∈ preorder (path ++ [i + j]) c := by
  induction cs with
  | nil => intro i; simp [preorderChildren]
  | cons c rest ih =>
    intro i
    simp only [preorderChildren, List.mem_append, ih (i + 1)]
    constructor
    · rintro (h | ⟨j, d, hd, h⟩)
      · exact ⟨0, c, by simp, by simpa using h⟩
      · exact ⟨j + 1, d, by simpa using hd, by
          have : i + (j + 1) = i + 1 + j := by omega
          rw [this]; exact h⟩
    · rintro ⟨j, d, hd, h⟩
      cases j with
      | zero =>
        simp only [List.getElem?_cons_zero, Option.some.injEq] at hd
        subst hd
        exact Or.inl (by simpa using h)
      | succ j =>
        refine Or.inr ⟨j, d, by simpa using hd, ?_⟩
        have : i + (j + 1) = i + 1 + j := by omega
        rw [this] at h; exact h

/-- The pre-order listing of a tree lists exactly the paths that lead to a node. -/
theorem mem_preorder_iff (r : Path) : ∀ (t : UIComponent) (path : Path),
    path ++ r ∈ preorder path t ↔ ∃ n, t.nodeAt r = some n := by
  induction r with
  | nil =>
    intro t path
    cases t with
    | mk s k b pl cs => simp [preorder, UIComponent.nodeAt]
  | cons i r ih =>
    intro t path
    cases t with
    | mk s k b pl cs =>
      have hne : path ++ i :: r ≠ path := by
        intro h
        have := congrArg List.length h
        simp at this
      simp only [preorder, List.mem_cons, hne, false_or, mem_preorderChildren,
        UIComponent.nodeAt, Nat.zero_add]
      constructor
      · rintro ⟨j, c, hc, h⟩
        have hpre := preorder_prefix (path ++ [j]) c _ h
        rw [List.prefix_append_right_inj] at hpre
        have hji : j = i := by simpa using hpre
        subst hji
        have h2 : (path ++ [j]) ++ r ∈ preorder (path ++ [j]) c := by simpa using h
        simpa [hc] using (ih c (path ++ [j])).mp h2
      · intro h
        cases hc : cs[i]? with
        | none => simp [hc] at h
        | some c =>
          simp only [hc] at h
          refine ⟨i, c, hc, ?_⟩
          have := (ih c (path ++ [i])).mpr h
          simpa using this

mutual
theorem render_control (path : Path) : ∀ (t : UIComponent) (e : UIRenderEvent),
    (render e path t).1.map RenderCall.control = preorder path t
  | .mk _ _ _ _ cs, e => by
    simp [render, preorder, renderChildren_control path 0 cs e]
theorem renderChildren_control (path : Path) (i : Nat) :
    ∀ (cs : List UIComponent) (e : UIRenderEvent),
    (renderChildren e path i cs).1.map RenderCall.control = preorderChildren path i cs
  | [], e => by simp [renderChildren, preorderChildren]
  | c :: rest, e => by
    simp [renderChildren, preorderChildren, render_control (path ++ [i]) c,
      renderChildren_control path (i + 1) rest]
end

/-! ## Facts about input dispatch -/

mutual
theorem input_sublist (e : InputEvent) (path : Path) : ∀ t : UIComponent,
    (input e path t).Sublist (preorder path t)
  | .mk _ _ b _ cs => by
    simp only [input, preorder]
    split
    · exact (inputChildren_sublist e path 0 cs).cons₂ _
    · exact List.nil_sublist _
theorem inputChildren_sublist (e : InputEvent) (path : Path) (i : Nat) :
    ∀ cs : List UIComponent, (inputChildren e path i cs).Sublist (preorderChildren path i cs)
  | [] => by simp [inputChildren, preorderChildren]
  | c :: rest => by
    simp only [inputChildren, preorderChildren]
    exact (input_sublist e (path ++ [i]) c).append (inputChildren_sublist e path (i + 1) rest)
end

theorem input_nodup (e : InputEvent) (path : Path) (t : UIComponent) :
    (input e path t).Nodup :=
  (input_sublist e path t).nodup (preorder_nodup path t)

theorem mem_inputChildren (e : InputEvent) (path : Path) (q : Path) (cs : List UIComponent) :
    ∀ i : Nat, q ∈ inputChildren e path i cs ↔
      ∃ j c, cs[j]? = some c ∧ q ∈ input e (path ++ [i + j]) c := by
  induction cs with
  | nil => intro i; simp [inputChildren]
  | cons c rest ih =>
    intro i
    simp only [inputChildren, List.mem_append, ih (i + 1)]
    constructor
    · rintro (h | ⟨j, d, hd, h⟩)
      · exact ⟨0, c, by simp, by simpa using h⟩
      · exact ⟨j + 1, d, by simpa using hd, by
          have : i + (j + 1) = i + 1 + j := by omega
          rw [this]; exact h⟩
    · rintro ⟨j, d, hd, h⟩
      cases j with
      | zero =>
        simp only [List.getElem?_cons_zero, Option.some.injEq] at hd
        subst hd
        exact Or.inl (by simpa using h)
      | succ j =>
        refine Or.inr ⟨j, d, by simpa using hd, ?_⟩
        have : i + (j + 1) = i + 1 + j := by omega
        rw [this] at h; exact h

/-- The input hook of the node at relative path `r` is invoked exactly when
the gates of that node and of every node on the way to it pass. -/
theorem mem_input_iff (e : InputEvent) (r : Path) : ∀ (t : UIComponent) (path : Path),
    path ++ r ∈ input e path t ↔ passesGates e.cursor t r = true := by
  induction r with
  | nil =>
    intro t path
    cases t with
    | mk s k b pl cs =>
      simp only [List.append_nil, input, passesGates, UIComponent.bounds]
      split <;> simp_all
  | cons i r ih =>
    intro t path
    cases t with
    | mk s k b pl cs =>
      have hne : path ++ i :: r ≠ path := by
        intro h
        have := congrArg List.length h
        simp at this
      simp only [input, passesGates]
      by_cases hb : b.inside e.cursor = true
      · simp only [hb, if_true, List.mem_cons, hne, false_or, mem_inputChildren,
          Nat.zero_add, Bool.true_and]
        constructor
        · rintro ⟨j, c, hc, h⟩
          have hpre := preorder_prefix (path ++ [j]) c _ ((input_sublist e _ c).subset h)
          rw [List.prefix_append_right_inj] at hpre
          have hji : j = i := by simpa using hpre
          subst hji
          have h2 : (path ++ [j]) ++ r ∈ input e (path ++ [j]) c := by simpa using h
          simpa [hc] using (ih c (path ++ [j])).mp h2
        · intro h
          cases hc : cs[i]? with
          | none => simp [hc] at h
          | some c =>
            simp only [hc] at h
            refine ⟨i, c, hc, ?_⟩
            have := (ih c (path ++ [i])).mpr h
            simpa using this
      · simp [hb]

theorem passesGates_iff (cursor : ℚ × ℚ) (r : Path) : ∀ t : UIComponent,
    passesGates cursor t r = true ↔ InsideAll t cursor r := by
  induction r with
  | nil =>
    intro t
    cases t with
    | mk s k b pl cs =>
      simp only [passesGates, InsideAll, UIComponent.nodeAt, List.prefix_nil]
      constructor
      · intro h
        refine ⟨⟨_, rfl⟩, ?_⟩
        rintro q m rfl hm
        simp only [UIComponent.nodeAt, Option.some.injEq] at hm
        subst hm
        exact h
      · rintro ⟨_, h⟩
        exact h [] _ rfl rfl
  | cons i r ih =>
    intro t
    cases t with
    | mk s k b pl cs =>
      simp only [passesGates, InsideAll, Bool.and_eq_true]
      constructor
      · rintro ⟨hb, h⟩
        cases hc : cs[i]? with
        | none => simp [hc] at h
        | some c =>
          simp only [hc] at h
          obtain ⟨⟨n, hn⟩, hall⟩ := (ih c).mp h
          refine ⟨⟨n, by simp [UIComponent.nodeAt, hc, hn]⟩, ?_⟩
          intro q m hq hm
          rcases List.prefix_cons_iff.mp hq with rfl | ⟨q', rfl, hq'⟩
          · simp only [UIComponent.nodeAt, Option.some.injEq] at hm
            subst hm
            exact hb
          · simp only [UIComponent.nodeAt, hc] at hm
            exact hall q' m hq' hm
      · rintro ⟨⟨n, hn⟩, hall⟩
        refine ⟨hall [] _ List.nil_prefix rfl, ?_⟩
        cases hc : cs[i]? with
        | none => simp [UIComponent.nodeAt, hc] at hn
        | some c =>
          simp only [UIComponent.nodeAt, hc] at hn
          refine (ih c).mpr ⟨⟨n, hn⟩, ?_⟩
          intro q' m hq' hm
          exact hall (i :: q') m (List.cons_prefix_cons.mpr ⟨rfl, hq'⟩)
            (by simp [UIComponent.nodeAt, hc, hm])

theorem mem_handle_input_iff (s : UISurface) (event : InputEvent) (p : Path) :
    p ∈ s.handle_input event ↔ InsideAll s.root event.cursor p := by
  rw [← passesGates_iff, ← mem_input_iff event p s.root []]
  simp [UISurface.handle_input]

/-- In a pre-order listing a node stands at a smaller position than each of
its descendants. -/
theorem preorder_positions (path : Path) (t : UIComponent) (i j : Nat) (p q : Path)
    (hi : (preorder path t)[i]? = some p) (hj : (preorder path t)[j]? = some q)
    (hpq : p <+: q) (hne : p ≠ q) : i < j := by
  have hp : p ∈ preorder path t := List.mem_iff_getElem?.mpr ⟨i, hi⟩
  have hq : q ∈ preorder path t := List.mem_iff_getElem?.mpr ⟨j, hj⟩
  obtain ⟨i', j', hij, hi', hj'⟩ :=
    positions_of_sublist_pair p q _ (preorder_sublist_pair path t p q hp hq hpq hne)
  have hnd := preorder_nodup path t
  have e1 : i = i' :=
    List.getElem?_inj (List.getElem?_eq_some.mp hi).1 hnd (hi.trans hi'.symm)
  have e2 : j = j' :=
    List.getElem?_inj (List.getElem?_eq_some.mp hj).1 hnd (hj.trans hj'.symm)
  omega

/-- An element of a duplicate-free list stands at exactly one position. -/
theorem unique_position_of_nodup {α : Type} (l : List α) (a : α) (hnd : l.Nodup)
    (h : a ∈ l) : ∃! i : Nat, l[i]? = some a := by
  obtain ⟨i, hi⟩ := List.mem_iff_getElem?.mp h
  refine ⟨i, hi, ?_⟩
  intro j hj
  exact List.getElem?_inj (List.getElem?_eq_some.mp hj).1 hnd (hj.trans hi.symm)

theorem draw_control (s : UISurface) : s.draw.map RenderCall.control = preorder [] s.root := by
  simp [UISurface.draw, render_control]

/-- The render hooks of `threeLevelTree` run in pre-order, each with its parent
in the context (the root is given itself). -/
theorem draw_threeLevelTree :
    (surfaceOf threeLevelTree).draw.map (fun c => (c.control, c.e.parent)) =
      [([], []), ([0], []), ([0, 0], [0]), ([0, 1], [0]), ([1], [])] := by
  simp [UISurface.draw, render, renderChildren, surfaceOf, threeLevelTree, plainNode]

/-! ## Facts about order in duplicate-free lists -/

/-- In a duplicate-free list, the members of a two-element sublist stand at
increasing positions. -/
theorem lt_of_sublist_pair {α : Type} (l : List α) (a b : α) (hnd : l.Nodup)
    (hsub : [a, b].Sublist l) (i j : Nat) (hi : l[i]? = some a) (hj : l[j]? = some b) :
    i < j := by
  obtain ⟨i', j', hij, hi', hj'⟩ := positions_of_sublist_pair a b l hsub
  have e1 : i = i' :=
    List.getElem?_inj (List.getElem?_eq_some.mp hi).1 hnd (hi.trans hi'.symm)
  have e2 : j = j' :=
    List.getElem?_inj (List.getElem?_eq_some.mp hj).1 hnd (hj.trans hj'.symm)
  omega

/-- Restricting a duplicate-free list to a sublist keeps the relative order of
the members that remain. -/
theorem sublist_pair_of_sublist {α : Type} (a b : α) : ∀ (l' l : List α), l'.Sublist l →
    l.Nodup → [a, b].Sublist l → a ∈ l' → b ∈ l' → [a, b].Sublist l' := by
  intro l' l h
  induction h with
  | slnil => intro _ _ ha; cases ha
  | @cons l₁ l₂ x h ih =>
    intro hnd hab ha hb
    rw [List.nodup_cons] at hnd
    cases hab with
    | cons _ hab' => exact ih hnd.2 hab' ha hb
    | cons₂ _ _ => exact absurd (h.subset ha) hnd.1
  | @cons₂ l₁ l₂ x h ih =>
    intro hnd hab ha hb
    rw [List.nodup_cons] at hnd
    cases hab with
    | cons _ hab' =>
      have ha0 : a ∈ l₂ := hab'.subset (by simp)
      have hb0 : b ∈ l₂ := hab'.subset (by simp)
      have ha' : a ∈ l₁ := by
        rcases List.mem_cons.mp ha with rfl | h1
        · exact absurd ha0 hnd.1
        · exact h1
      have hb' : b ∈ l₁ := by
        rcases List.mem_cons.mp hb with rfl | h1
        · exact absurd hb0 hnd.1
        · exact h1
      exact (ih hnd.2 hab' ha' hb').cons _
    | cons₂ _ hb0 =>
      have hb1 : b ∈ l₂ := List.singleton_sublist.mp hb0
      have hb' : b ∈ l₁ := by
        rcases List.mem_cons.mp hb with rfl | h1
        · exact absurd hb1 hnd.1
        · exact h1
      exact (List.singleton_sublist.mpr hb').cons₂ _

/-- A sublist of a duplicate-free list whose members are exactly the members
of the list that satisfy a test is the list filtered by that test. -/
theorem eq_filter_of_sublist {α : Type} (P : α → Bool) : ∀ (l' l : List α), l'.Sublist l →
    l.Nodup → (∀ x, x ∈ l' ↔ x ∈ l ∧ P x = true) → l' = l.filter P := by
  intro l' l h
  induction h with
  | slnil => intro _ _; rfl
  | @cons l₁ l₂ x h ih =>
    intro hnd hmem
    rw [List.nodup_cons] at hnd
    have hx : x ∉ l₁ := fun hx => hnd.1 (h.subset hx)
    have hPx : ¬ (P x = true) := fun hp => hx ((hmem x).mpr ⟨by simp, hp⟩)
    have hrec : ∀ y, y ∈ l₁ ↔ y ∈ l₂ ∧ P y = true := by
      intro y
      constructor
      · intro hy
        exact ⟨h.subset hy, ((hmem y).mp hy).2⟩
      · rintro ⟨hy, hp⟩
        exact (hmem y).mpr ⟨List.mem_cons_of_mem _ hy, hp⟩
    rw [List.filter_cons_of_neg hPx]
    exact ih hnd.2 hrec
  | @cons₂ l₁ l₂ x h ih =>
    intro hnd hmem
    rw [List.nodup_cons] at hnd
    have hPx : P x = true := ((hmem x).mp (by simp)).2
    have hrec : ∀ y, y ∈ l₁ ↔ y ∈ l₂ ∧ P y = true := by
      intro y
      constructor
      · intro hy
        exact ⟨h.subset hy, ((hmem y).mp (List.mem_cons_of_mem _ hy)).2⟩
      · rintro ⟨hy, hp⟩
        rcases List.mem_cons.mp ((hmem y).mpr ⟨List.mem_cons_of_mem _ hy, hp⟩) with rfl | h1
        · exact absurd hy hnd.1
        · exact h1
    rw [List.filter_cons_of_pos hPx, ← ih hnd.2 hrec]

/-! ## Facts about siblings in the pre-order listing -/

/-- Among the listings of a run of children, whatever lies under an earlier
child is listed before whatever lies under a later one. -/
theorem preorderChildren_sibling_pair (path : Path) (x y : Path) (i j : Nat) (hij : i < j)
    (hx : path ++ [i] <+: x) (hy : path ++ [j] <+: y) :
    ∀ (cs : List UIComponent) (k : Nat), x ∈ preorderChildren path k cs →
      y ∈ preorderChildren path k cs → [x, y].Sublist (preorderChildren path k cs) := by
  intro cs
  induction cs with
  | nil => intro k h; simp [preorderChildren] at h
  | cons c rest ih =>
    intro k hxm hym
    simp only [preorderChildren, List.mem_append] at hxm hym ⊢
    rcases hxm with hx1 | hx2
    · rcases hym with hy1 | hy2
      · exfalso
        have e1 := child_index_unique hx ( preorder_prefix (path ++ [k]) c x hx1)
        have e2 := child_index_unique hy ( preorder_prefix (path ++ [k]) c y hy1)
        omega
      · exact (List.singleton_sublist.mpr hx1).append (List.singleton_sublist.mpr hy2)
    · rcases hym with hy1 | hy2
      · exfalso
        obtain ⟨m, hkm, hm⟩ := preorderChildren_prefix path (k + 1) rest x hx2
        have e1 := child_index_unique hx hm
        have e2 := child_index_unique hy ( preorder_prefix (path ++ [k]) c y hy1)
        omega
      · exact (ih (k + 1) hx2 hy2).trans (List.sublist_append_right _ _)

/-- The listing of a child's subtree is a contiguous part, hence a sublist, of
the listing of the children. -/
theorem preorder_sublist_children (path : Path) : ∀ (cs : List UIComponent) (k m : Nat)
    (c : UIComponent), cs[m]? = some c →
    (preorder (path ++ [k + m]) c).Sublist (preorderChildren path k cs) := by
  intro cs
  induction cs with
  | nil => intro k m c h; simp at h
  | cons d rest ih =>
    intro k m c h
    simp only [preorderChildren]
    cases m with
    | zero =>
      simp only [List.getElem?_cons_zero, Option.some.injEq] at h
      subst h
      exact List.sublist_append_left _ _
    | succ m =>
      have h' : rest[m]? = some c := by simpa using h
      have e : k + (m + 1) = k + 1 + m := by omega
      rw [e]
      exact (ih (k + 1) m c h').trans (List.sublist_append_right _ _)

/-- In the pre-order listing, whatever lies under a child of some node is
listed before whatever lies under a later child of the same node. -/
theorem preorder_sibling_pair (r : Path) (x y : Path) (i j : Nat) (hij : i < j) :
    ∀ (t : UIComponent) (path : Path), path ++ r ++ [i] <+: x → path ++ r ++ [j] <+: y →
      x ∈ preorder path t → y ∈ preorder path t → [x, y].Sublist (preorder path t) := by
  induction r with
  | nil =>
    intro t path hx hy hxm hym
    cases t with
    | mk s k b pl cs =>
      simp only [List.append_nil] at hx hy
      simp only [preorder, List.mem_cons] at hxm hym ⊢
      have hx0 : x ≠ path := fun h => not_child_prefix_self path i (h ▸ hx)
      have hy0 : y ≠ path := fun h => not_child_prefix_self path j (h ▸ hy)
      exact (preorderChildren_sibling_pair path x y i j hij hx hy cs 0
        (hxm.resolve_left hx0) (hym.resolve_left hy0)).cons _
  | cons m r ih =>
    intro t path hx hy hxm hym
    cases t with
    | mk s k b pl cs =>
      have hxa : path ++ [m] ++ r ++ [i] <+: x := by simpa using hx
      have hya : path ++ [m] ++ r ++ [j] <+: y := by simpa using hy
      have hxp : path ++ [m] <+: x :=
        List.IsPrefix.trans (by simp [List.append_assoc]) hxa
      have hyp : path ++ [m] <+: y :=
        List.IsPrefix.trans (by simp [List.append_assoc]) hya
      have hx0 : x ≠ path := fun h => not_child_prefix_self path m (h ▸ hxp)
      have hy0 : y ≠ path := fun h => not_child_prefix_self path m (h ▸ hyp)
      simp only [preorder, List.mem_cons] at hxm hym ⊢
      have hxc := hxm.resolve_left hx0
      have hyc := hym.resolve_left hy0
      obtain ⟨jx, cx, hcx, hxin⟩ := (mem_preorderChildren path x cs 0).mp hxc
      obtain ⟨jy, cy, hcy, hyin⟩ := (mem_preorderChildren path y cs 0).mp hyc
      simp only [Nat.zero_add] at hxin hyin
      have ex : jx = m := child_index_unique ( preorder_prefix _ cx x hxin) hxp
      have ey : jy = m := child_index_unique ( preorder_prefix _ cy y hyin) hyp
      rw [ex] at hcx hxin
      rw [ey] at hcy hyin
      rw [hcx] at hcy
      cases hcy
      have hsub := ih cx (path ++ [m]) hxa hya hxin hyin
      have hchild := preorder_sublist_children path cs 0 m cx hcx
      simp only [Nat.zero_add] at hchild
      exact ((hsub.trans hchild)).cons _

/-! ## Facts about the hooks and the tree after a traversal -/

theorem inputHook_node (e : InputEvent) (n : UIComponent) : (n.inputHook e).1 = n := by
  cases n with
  | mk s k b p cs => cases k <;> rfl

theorem renderHook_node (e : UIRenderEvent) (n : UIComponent) : (n.renderHook e).1 = n := by
  cases n with
  | mk s k b p cs => cases k <;> rfl

mutual
theorem inputTree_eq (e : InputEvent) : ∀ n : UIComponent, inputTree e n = n
  | .mk s k b p cs => by
    rw [inputTree]
    split
    · split
      next s' k' b' p' cs' h =>
        rw [inputHook_node] at h
        cases h
        rw [inputTreeChildren_eq e cs]
    · rfl
theorem inputTreeChildren_eq (e : InputEvent) :
    ∀ cs : List UIComponent, inputTreeChildren e cs = cs
  | [] => by rw [inputTreeChildren]
  | c :: rest => by
    rw [inputTreeChildren, inputTree_eq e c, inputTreeChildren_eq e rest]
end

mutual
theorem renderTree_eq (path : Path) : ∀ (n : UIComponent) (e : UIRenderEvent),
    (renderTree e path n).1 = n
  | .mk s k b p cs, e => by
    rw [renderTree]
    split
    next s' k' b' p' cs' h =>
      rw [renderHook_node] at h
      cases h
      simp [renderTreeChildren_eq path 0 cs e]
theorem renderTreeChildren_eq (path : Path) (i : Nat) :
    ∀ (cs : List UIComponent) (e : UIRenderEvent), (renderTreeChildren e path i cs).1 = cs
  | [], e => by rw [renderTreeChildren]
  | c :: rest, e => by
    rw [renderTreeChildren]
    simp [renderTree_eq (path ++ [i]) c, renderTreeChildren_eq path (i + 1) rest]
end

/-! ## Facts about the render context and about bounds in rendering -/

mutual
theorem render_parent (path : Path) : ∀ (t : UIComponent) (e : UIRenderEvent) (c : RenderCall),
    c ∈ (render e path t).1 → c = ⟨path, e⟩ ∨ c.e.parent = c.control.dropLast
  | .mk _ _ _ _ cs, e, c, h => by
    simp only [render, List.mem_cons] at h
    rcases h with h | h
    · exact Or.inl h
    · exact Or.inr (renderChildren_parent path 0 cs e c h)
theorem renderChildren_parent (path : Path) (i : Nat) :
    ∀ (cs : List UIComponent) (e : UIRenderEvent) (c : RenderCall),
    c ∈ (renderChildren e path i cs).1 → c.e.parent = c.control.dropLast
  | [], e, c, h => by simp [renderChildren] at h
  | d :: rest, e, c, h => by
    simp only [renderChildren, List.mem_append] at h
    rcases h with h | h
    · rcases render_parent (path ++ [i]) d _ c h with h1 | h1
      · subst h1
        simp
      · exact h1
    · exact renderChildren_parent path (i + 1) rest _ c h
end

mutual
theorem render_withBounds (g : Path → Rect) (path : Path) :
    ∀ (t : UIComponent) (e : UIRenderEvent),
    render e path (withBounds g path t) = render e path t
  | .mk _ _ _ _ cs, e => by
    simp only [withBounds, render, renderChildren_withBounds g path 0 cs e]
theorem renderChildren_withBounds (g : Path → Rect) (path : Path) (i : Nat) :
    ∀ (cs : List UIComponent) (e : UIRenderEvent),
    renderChildren e path i (withBoundsChildren g path i cs) = renderChildren e path i cs
  | [], e => by simp only [withBoundsChildren]
  | c :: rest, e => by
    simp only [withBoundsChildren, renderChildren, render_withBounds g (path ++ [i]) c,
      renderChildren_withBounds g path (i + 1) rest]
end

theorem mem_input_root_iff (e : InputEvent) (t : UIComponent) (p : Path) :
    p ∈ input e [] t ↔ passesGates e.cursor t p = true := by
  simpa using mem_input_iff e p t []

theorem passesGates_mem_preorder (cursor : ℚ × ℚ) (t : UIComponent) (p : Path)
    (h : passesGates cursor t p = true) : p ∈ preorder [] t := by
  have hn := ((passesGates_iff cursor p t).mp h).1
  simpa using (mem_preorder_iff p t []).mpr hn

theorem foldl_set_root_stylesheet (sheets : List UIStyleSheet) : ∀ s0 : UISurface,
    (sheets.foldl UISurface.set_root_stylesheet s0).stylesheet =
      sheets.getLast?.getD s0.stylesheet ∧
    (sheets.foldl UISurface.set_root_stylesheet s0).root = s0.root := by
  induction sheets with
  | nil => intro s0; simp
  | cons a rest ih =>
    intro s0
    obtain ⟨h1, h2⟩ := ih (s0.set_root_stylesheet a)
    rw [List.foldl_cons, h1, h2, List.getLast?_cons]
    refine ⟨?_, rfl⟩
    cases rest.getLast? <;> simp [UISurface.set_root_stylesheet]

/-! ## Facts about the Euclidean rhythm -/

theorem vectorAt_ok (v : List Int) (i : Nat) (x : Int) (h : v[i]? = some x) :
    vectorAt v (i : Int) = .ok x := by
  have h0 : ¬ ((i : Int) < 0) := by omega
  simp [vectorAt, h0, h]

theorem repeatCall_ok (body : List Bool → Except Fault (List Bool)) (w : List Bool)
    (hbody : ∀ p, body p = .ok (p ++ w)) : ∀ (k : Nat) (p : List Bool),
    repeatCall k body p = .ok (p ++ (List.replicate k w).flatten) := by
  intro k
  induction k with
  | zero => intro p; simp [repeatCall]
  | succ k ih =>
    intro p
    simp [repeatCall, hbody, ih, List.replicate_succ]

/-- Within the bounds of the two vectors the recursive lambda returns, and what
it appends to the pattern is `word`. -/
theorem bjorklund_word (counts remainders : List Int) : ∀ (n : Nat),
    (∀ l, l + 2 ≤ n → l < counts.length ∧ l < remainders.length) →
    ∀ pattern : List Bool, bjorklund counts remainders ((n : Int) - 2) pattern =
      .ok (pattern ++ word counts remainders n) := by
  intro n
  induction n using Nat.strong_induction_on with
  | _ n ih =>
    intro hb pattern
    match n with
    | 0 =>
      rw [bjorklund]
      simp [word]
    | 1 =>
      rw [bjorklund]
      simp [word]
    | n + 2 =>
      have hlev : ((n + 2 : Nat) : Int) - 2 = (n : Int) := by push_cast; ring
      obtain ⟨hc, hr⟩ := hb n (le_refl _)
      have h1 := ih (n + 1) (by omega) (fun l hl => hb l (by omega))
      have h0 := ih n (by omega) (fun l hl => hb l (by omega))
      have e1 : (n : Int) - 1 = ((n + 1 : Nat) : Int) - 2 := by push_cast; ring
      rw [bjorklund, hlev]
      have hpos : (n : Int) > -1 := by omega
      rw [if_pos hpos, vectorAt_ok counts n counts[n] (by simp [hc])]
      simp only []
      rw [repeatCall_ok (fun p => bjorklund counts remainders ((n : Int) - 1) p)
        (word counts remainders (n + 1)) (by intro p; rw [e1]; exact h1 p)]
      simp only []
      rw [vectorAt_ok remainders n remainders[n] (by simp [hr])]
      simp only []
      have gc : counts[n]?.getD 0 = counts[n] := by simp [List.getElem?_eq_getElem hc]
      have gr : remainders[n]?.getD 0 = remainders[n] := by
        simp [List.getElem?_eq_getElem hr]
      by_cases hz : remainders[n] = 0
      · simp [word, gc, gr, hz]
      · rw [if_pos hz, h0]
        simp [word, gc, gr, hz]

/-- The pattern of level `n - 2` reads only the entries below `n - 1` of the two
vectors. -/
theorem word_congr (c1 r1 c2 r2 : List Int) : ∀ (n : Nat),
    (∀ l, l + 2 ≤ n → c1.getD l 0 = c2.getD l 0 ∧ r1.getD l 0 = r2.getD l 0) →
    word c1 r1 n = word c2 r2 n := by
  intro n
  induction n using Nat.strong_induction_on with
  | _ n ih =>
    intro h
    match n with
    | 0 => simp [word]
    | 1 => simp [word]
    | n + 2 =>
      obtain ⟨hc, hr⟩ := h n (le_refl _)
      have e1 := ih (n + 1) (by omega) (fun l hl => h l (by omega))
      have e0 := ih n (by omega) (fun l hl => h l (by omega))
      simp only [word, hc, hr, e1, e0]

theorem word_append (c r : List Int) (q m : Int) (n : Nat) (hc : n ≤ c.length + 1)
    (hr : n ≤ r.length + 1) : word (c ++ [q]) (r ++ [m]) n = word c r n := by
  apply word_congr
  intro l hl
  constructor
  · simp only [List.getD_eq_getElem?_getD]
    rw [List.getElem?_append_left (by omega)]
  · simp only [List.getD_eq_getElem?_getD]
    rw [List.getElem?_append_left (by omega)]

/-- The pattern of the level whose count and remainder have just been pushed. -/
theorem word_step (c r : List Int) (q m ρ : Int) (lev : Nat) (hc : c.length = lev)
    (hr : r.length = lev + 1) (hρ : r[lev]? = some ρ) (hne : ρ ≠ 0) :
    word (c ++ [q]) (r ++ [m]) (lev + 2) =
      (List.replicate q.toNat (word c r (lev + 1))).flatten ++ word c r lev := by
  have gq : (c ++ [q]).getD lev 0 = q := by
    simp only [List.getD_eq_getElem?_getD]
    rw [List.getElem?_append_right (by omega)]
    simp [hc]
  have gr : (r ++ [m]).getD lev 0 = ρ := by
    simp only [List.getD_eq_getElem?_getD]
    rw [List.getElem?_append_left (by omega), hρ]
    rfl
  rw [word, gq, gr, if_pos hne, word_append c r q m (lev + 1) (by omega) (by omega),
    word_append c r q m lev (by omega) (by omega)]

/-- Rule for the `while (true)` loop: entered with a remainder of at least one
and at least that much fuel, it leaves by its `break`, never by a fault, and
what every iteration preserves holds of the state it leaves. -/
theorem euclidLoop_rule (Inv : List Int → List Int → Int → Nat → Prop)
    (hstep : ∀ (c r : List Int) (d ρ : Int) (lev : Nat), c.length = lev →
      r.length = lev + 1 → r[lev]? = some ρ → 1 ≤ ρ → (lev = 0 ∨ 1 < ρ) → 0 ≤ d →
      Inv c r d lev → Inv (c ++ [d.tdiv ρ]) (r ++ [d.tmod ρ]) ρ (lev + 1)) :
    ∀ (fuel : Nat) (c r : List Int) (d ρ : Int) (lev : Nat), c.length = lev →
      r.length = lev + 1 → r[lev]? = some ρ → 1 ≤ ρ → (lev = 0 ∨ 1 < ρ) → 0 ≤ d →
      ρ.toNat ≤ fuel → Inv c r d lev →
      ∃ (c' r' : List Int) (d' ρ' : Int) (lev' : Nat),
        euclidLoop fuel c r d (lev : Int) = .ok (c', r', d', (lev' : Int)) ∧
        c'.length = lev' ∧ r'.length = lev' + 1 ∧ r'[lev']? = some ρ' ∧
        0 ≤ ρ' ∧ ρ' ≤ 1 ∧ 1 ≤ d' ∧ 1 ≤ lev' ∧ Inv c' r' d' lev' := by
  intro fuel
  induction fuel with
  | zero =>
    intro c r d ρ lev _ _ _ h1 _ _ hf _
    omega
  | succ fuel ih =>
    intro c r d ρ lev hc hr hρ h1 hlev hd hf hinv
    have hne : ρ ≠ 0 := by omega
    have hm0 : 0 ≤ d.tmod ρ := Int.tmod_nonneg ρ hd
    have hmlt : d.tmod ρ < ρ := Int.tmod_lt_of_pos d (by omega)
    have hat1 : vectorAt r (lev : Int) = .ok ρ := vectorAt_ok r lev ρ hρ
    have hat2 : vectorAt (r ++ [d.tmod ρ]) (lev : Int) = .ok ρ :=
      vectorAt_ok _ lev ρ (by rw [List.getElem?_append_left (by omega)]; exact hρ)
    have hlast : (r ++ [d.tmod ρ])[lev + 1]? = some (d.tmod ρ) := by
      rw [List.getElem?_append_right (by omega)]
      simp [hr]
    have hat3 : vectorAt (r ++ [d.tmod ρ]) ((lev : Int) + 1) = .ok (d.tmod ρ) := by
      have := vectorAt_ok (r ++ [d.tmod ρ]) (lev + 1) (d.tmod ρ) hlast
      simpa using this
    have hnew := hstep c r d ρ lev hc hr hρ h1 hlev hd hinv
    rw [euclidLoop]
    simp only [hat1, intDiv, intMod, if_neg hne, hat2, hat3]
    by_cases hexit : d.tmod ρ ≤ 1
    · rw [if_pos hexit]
      refine ⟨_, _, ρ, d.tmod ρ, lev + 1, ?_, ?_, ?_, hlast, hm0, hexit, h1, by omega, hnew⟩
      · simp
      · simp [hc]
      · simp [hr]
    · rw [if_neg hexit]
      have := ih (c ++ [d.tdiv ρ]) (r ++ [d.tmod ρ]) ρ (d.tmod ρ) (lev + 1) (by simp [hc])
        (by simp [hr]) hlast (by omega) (Or.inr (by omega)) (by omega) (by omega) hnew
      simpa using this

/-- For `1 <= pulses <= steps` and fuel of at least `pulses`, the loop leaves
by its `break` and `make_euclidean_rhythm` returns the final count times the
pattern of the last level followed, when the last remainder is not zero, by
the pattern of the level before; what every iteration preserves holds of the
state the loop leaves. -/
theorem make_euclidean_rhythm_spec (Inv : List Int → List Int → Int → Nat → Prop)
    (hstep : ∀ (c r : List Int) (d ρ : Int) (lev : Nat), c.length = lev →
      r.length = lev + 1 → r[lev]? = some ρ → 1 ≤ ρ → (lev = 0 ∨ 1 < ρ) → 0 ≤ d →
      Inv c r d lev → Inv (c ++ [d.tdiv ρ]) (r ++ [d.tmod ρ]) ρ (lev + 1))
    (fuel : Nat) (steps pulses : Int) (h1 : 1 ≤ pulses) (h2 : pulses ≤ steps)
    (hf : pulses.toNat ≤ fuel) (h0 : Inv [] [pulses] (steps - pulses) 0) :
    ∃ (c r : List Int) (d ρ : Int) (lev : Nat),
      euclidLoop fuel [] [pulses] (steps - pulses) 0 = .ok (c, r, d, (lev : Int)) ∧
      make_euclidean_rhythm fuel steps pulses =
        .ok ((List.replicate d.toNat (word c r (lev + 1))).flatten ++
          (if ρ ≠ 0 then word c r lev else [])) ∧
      c.length = lev ∧ r.length = lev + 1 ∧ r[lev]? = some ρ ∧
      0 ≤ ρ ∧ ρ ≤ 1 ∧ 1 ≤ d ∧ 1 ≤ lev ∧ Inv c r d lev := by
  obtain ⟨c, r, d, ρ, lev, hloop, hc, hr, hρ, hρ0, hρ1, hd, hlev, hinv⟩ :=
    euclidLoop_rule Inv hstep fuel [] [pulses] (steps - pulses) pulses 0 rfl rfl rfl h1
      (Or.inl rfl) (by omega) hf h0
  have hloop' : euclidLoop fuel [] [pulses] (steps - pulses) 0 = .ok (c, r, d, (lev : Int)) := by
    simpa using hloop
  refine ⟨c, r, d, ρ, lev, hloop', ?_, hc, hr, hρ, hρ0, hρ1, hd, hlev, hinv⟩
  have hguard : ¬ (pulses > steps ∨ pulses = 0 ∨ steps = 0) := by omega
  have hbj := bjorklund_word (c ++ [d]) r (lev + 2)
    (by
      intro l hl
      simp only [List.length_append, List.length_singleton]
      omega)
    []
  have hlevel : (((lev + 2 : Nat) : Int) - 2) = (lev : Int) := by push_cast; ring
  rw [hlevel] at hbj
  rw [make_euclidean_rhythm, if_neg hguard, hloop']
  simp only []
  rw [hbj]
  have gq : (c ++ [d]).getD lev 0 = d := by
    simp only [List.getD_eq_getElem?_getD]
    rw [List.getElem?_append_right (by omega)]
    simp [hc]
  have gr : r.getD lev 0 = ρ := by
    simp only [List.getD_eq_getElem?_getD]
    rw [hρ]
    rfl
  have w1 : word (c ++ [d]) r (lev + 1) = word c r (lev + 1) :=
    word_congr _ _ _ _ _ (fun l hl => ⟨by
      simp only [List.getD_eq_getElem?_getD]
      rw [List.getElem?_append_left (by omega)], rfl⟩)
  have w0 : word (c ++ [d]) r lev = word c r lev :=
    word_congr _ _ _ _ _ (fun l hl => ⟨by
      simp only [List.getD_eq_getElem?_getD]
      rw [List.getElem?_append_left (by omega)], rfl⟩)
  simp only [List.nil_append, word, gq, gr, w1, w0]

theorem additive_flatten_replicate (f : List Bool → Int) (hf0 : f [] = 0)
    (hadd : ∀ x y, f (x ++ y) = f x + f y) (w : List Bool) : ∀ k : Nat,
    f (List.replicate k w).flatten = (k : Int) * f w := by
  intro k
  induction k with
  | zero => simp [hf0]
  | succ k ih =>
    rw [List.replicate_succ, List.flatten_cons, hadd, ih]
    push_cast
    ring

/-- Any quantity that adds up over concatenation (the length, the number of
pulses) has, on the returned pattern, the value it has on `steps - pulses`
times `false` and `pulses` times `true`. -/
theorem make_euclidean_rhythm_measure (f : List Bool → Int) (hf0 : f [] = 0)
    (hadd : ∀ x y, f (x ++ y) = f x + f y) (fuel : Nat) (steps pulses : Int)
    (h1 : 1 ≤ pulses) (h2 : pulses ≤ steps) (hf : pulses.toNat ≤ fuel) :
    ∃ p, make_euclidean_rhythm fuel steps pulses = .ok p ∧
      f p = (steps - pulses) * f [false] + pulses * f [true] := by
  obtain ⟨c, r, d, ρ, lev, _, hmake, hc, hr, hρ, hρ0, hρ1, hd, hlev, ρ', hρ', hinv⟩ :=
    make_euclidean_rhythm_spec
      (fun c r d lev => ∃ ρ, r[lev]? = some ρ ∧
        d * f (word c r (lev + 1)) + ρ * f (word c r lev) =
          (steps - pulses) * f [false] + pulses * f [true])
      (by
        intro c r d ρ lev hc hr hρ h1 _ hd ⟨ρ', hρ', hinv⟩
        rw [hρ] at hρ'
        cases hρ'
        refine ⟨d.tmod ρ, ?_, ?_⟩
        · rw [List.getElem?_append_right (by omega)]
          simp [hr]
        · rw [word_step c r _ _ ρ lev hc hr hρ (by omega),
            word_append c r _ _ (lev + 1) (by omega) (by omega), hadd,
            additive_flatten_replicate f hf0 hadd]
          have hq : ((d.tdiv ρ).toNat : Int) = d.tdiv ρ :=
            Int.toNat_of_nonneg (Int.tdiv_nonneg hd (by omega))
          rw [hq]
          have e := Int.tdiv_add_tmod d ρ
          linear_combination hinv + f (word c r (lev + 1)) * e)
      fuel steps pulses h1 h2 hf ⟨pulses, rfl, by simp [word]⟩
  rw [hρ] at hρ'
  cases hρ'
  refine ⟨_, hmake, ?_⟩
  rw [hadd, additive_flatten_replicate f hf0 hadd, Int.toNat_of_nonneg (by omega)]
  have hcase : ρ = 0 ∨ ρ = 1 := by omega
  rcases hcase with h | h
  · subst h
    simp only [ne_eq, not_true_eq_false, if_false, hf0]
    linear_combination hinv
  · subst h
    simp only [ne_eq, one_ne_zero, not_false_eq_true, if_true]
    linear_combination hinv

/-! ## Facts about patterns made of blocks -/

theorem flat_append (a b : List Nat) : flat (a ++ b) = flat a ++ flat b := by
  induction a with
  | nil => rfl
  | cons x a ih => simp [flat, ih]

theorem flatten_replicate_false (k : Nat) :
    (List.replicate k [false]).flatten = List.replicate k false := by
  induction k with
  | zero => rfl
  | succ k ih => simp [List.replicate_succ, ih]

theorem flatten_replicate_flat (c : Nat) (k : Nat) :
    (List.replicate k (flat [c])).flatten = flat (List.replicate k c) := by
  induction k with
  | zero => rfl
  | succ k ih =>
    rw [List.replicate_succ, List.flatten_cons, ih, List.replicate_succ]
    simp [flat]

theorem Blocks_single (c : Nat) (two : Prop) : Blocks c two (flat [c]) :=
  ⟨[c], 0, by simp, rfl, by simp, Or.inl rfl⟩

theorem Blocks_append (c : Nat) (two : Prop) (u v : List Bool) (hu : Blocks c two u)
    (hv : Blocks c two v) : Blocks c two (u ++ v) := by
  obtain ⟨bs, t, rfl, hh, hm, ht⟩ := hu
  obtain ⟨bs', t', rfl, hh', hm', ht'⟩ := hv
  cases bs' with
  | nil => simp at hh'
  | cons b' bs'' =>
    simp only [List.head?_cons, Option.some.injEq] at hh'
    subst hh'
    cases bs with
    | nil => simp at hh
    | cons b0 bs0 =>
      simp only [List.head?_cons, Option.some.injEq] at hh
      subst hh
      rcases ht with rfl | ⟨htwo, rfl⟩
      · refine ⟨(b0 :: bs0) ++ (b0 :: bs''), t', ?_, rfl, ?_, ht'⟩
        · rw [flat_append]
          simp
        · intro b hb
          rcases List.mem_append.mp hb with h | h
          · exact hm b h
          · exact hm' b h
      · refine ⟨(b0 :: bs0) ++ ((b0 + 1) :: bs''), t', ?_, rfl, ?_, ht'⟩
        · rw [flat_append, flat.eq_2 (b0 + 1), flat.eq_2 b0 bs'']
          simp [List.replicate_succ]
        · intro b hb
          rcases List.mem_append.mp hb with h | h
          · exact hm b h
          · rcases List.mem_cons.mp h with h | h
            · exact Or.inr ⟨htwo, h⟩
            · exact hm' b (List.mem_cons_of_mem _ h)

theorem Blocks_power (c : Nat) (two : Prop) (u : List Bool) (hu : Blocks c two u) :
    ∀ k : Nat, 1 ≤ k → Blocks c two (List.replicate k u).flatten := by
  intro k hk
  induction k with
  | zero => omega
  | succ k ih =>
    cases k with
    | zero => simpa using hu
    | succ k =>
      rw [List.replicate_succ, List.flatten_cons]
      exact Blocks_append c two _ _ hu (ih (by omega))

theorem Blocks_power_single (c : Nat) (two : Prop) (k t : Nat) (hk : 1 ≤ k)
    (ht : t = 0 ∨ (two ∧ t = 1)) :
    Blocks c two ((List.replicate k (flat [c])).flatten ++ List.replicate t false) := by
  refine ⟨List.replicate k c, t, by rw [flatten_replicate_flat], ?_, ?_, ht⟩
  · cases k with
    | zero => omega
    | succ k => simp [List.replicate_succ]
  · intro b hb
    exact Or.inl (List.eq_of_mem_replicate hb)

theorem run_split (b : Nat) : ∀ (u v rest : List Bool),
    List.replicate b false ++ true :: rest = u ++ true :: v →
    (u = List.replicate b false ∧ v = rest) ∨
      ∃ u', u = List.replicate b false ++ true :: u' ∧ rest = u' ++ true :: v := by
  induction b with
  | zero =>
    intro u v rest h
    cases u with
    | nil =>
      simp only [List.replicate_zero, List.nil_append, List.cons.injEq, true_and] at h
      exact Or.inl ⟨rfl, h.symm⟩
    | cons x u' =>
      simp only [List.replicate_zero, List.nil_append, List.cons_append,
        List.cons.injEq] at h
      obtain ⟨hx, hrest⟩ := h
      subst hx
      exact Or.inr ⟨u', rfl, hrest⟩
  | succ b ih =>
    intro u v rest h
    cases u with
    | nil => simp [List.replicate_succ] at h
    | cons x u' =>
      simp only [List.replicate_succ, List.cons_append, List.cons.injEq] at h
      obtain ⟨hx, hrest⟩ := h
      subst hx
      rcases ih u' v rest hrest with ⟨h1, h2⟩ | ⟨u'', h1, h2⟩
      · exact Or.inl ⟨by simp [List.replicate_succ, h1], h2⟩
      · exact Or.inr ⟨u'', by simp [List.replicate_succ, h1], h2⟩

/-- Every `true` of a pattern made of blocks ends one of the blocks. -/
theorem flat_split (t : Nat) : ∀ (bs : List Nat) (u v : List Bool),
    flat bs ++ List.replicate t false = u ++ true :: v →
    ∃ (bs1 : List Nat) (b : Nat) (bs2 : List Nat), bs = bs1 ++ b :: bs2 ∧
      u = flat bs1 ++ List.replicate b false ∧ v = flat bs2 ++ List.replicate t false := by
  intro bs
  induction bs with
  | nil =>
    intro u v h
    exfalso
    have h2 : true ∈ flat [] ++ List.replicate t false := by rw [h]; simp
    simp [flat] at h2
  | cons b bs ih =>
    intro u v h
    have h' : List.replicate b false ++ true :: (flat bs ++ List.replicate t false) =
        u ++ true :: v := by simpa [flat] using h
    rcases run_split b u v _ h' with ⟨h1, h2⟩ | ⟨u', h1, h2⟩
    · exact ⟨[], b, bs, rfl, by simpa [flat] using h1, h2⟩
    · obtain ⟨bs1, b', bs2, e1, e2, e3⟩ := ih u' v h2
      refine ⟨b :: bs1, b', bs2, by simp [e1], ?_, e3⟩
      rw [h1, e2]
      simp [flat]

/-- In a pattern made of blocks, the cyclic continuation after any `true` runs
through `c` (or, when `two` holds, possibly `c + 1`) times `false` and then
meets a `true`. -/
theorem Blocks_gap (c : Nat) (two : Prop) (w u v : List Bool) (hw : Blocks c two w)
    (h : w = u ++ true :: v) :
    ∃ (g : Nat) (rest : List Bool), v ++ u ++ [true] = List.replicate g false ++ true :: rest ∧
      (g = c ∨ (two ∧ g = c + 1)) := by
  obtain ⟨bs, t, rfl, hh, hm, ht⟩ := hw
  obtain ⟨bs1, b, bs2, e1, e2, e3⟩ := flat_split t bs u v h
  subst e2
  subst e3
  cases bs2 with
  | cons b2 bs2' =>
    refine ⟨b2, flat bs2' ++ List.replicate t false ++ (flat bs1 ++ List.replicate b false) ++
      [true], by simp [flat], ?_⟩
    exact hm b2 (by rw [e1]; simp)
  | nil =>
    have hhead : (bs1 ++ [b]).head? = some c := by rw [← e1]; exact hh
    cases hb1 : bs1 ++ [b] with
    | nil => simp at hb1
    | cons x tl =>
      rw [hb1] at hhead
      simp only [List.head?_cons, Option.some.injEq] at hhead
      subst hhead
      have hflat : flat bs1 ++ List.replicate b false ++ [true] = flat (x :: tl) := by
        rw [← hb1, flat_append]
        simp [flat]
      refine ⟨t + x, flat tl, ?_, ?_⟩
      · have e0 : flat [] ++ List.replicate t false ++
            (flat bs1 ++ List.replicate b false) ++ [true] =
            List.replicate t false ++ (flat bs1 ++ List.replicate b false ++ [true]) := by
          simp [flat.eq_1]
        rw [e0, hflat, flat.eq_2, List.replicate_add, List.append_assoc]
      · rcases ht with rfl | ⟨htwo, rfl⟩
        · exact Or.inl (by omega)
        · exact Or.inr ⟨htwo, by omega⟩

theorem tdiv_toNat_pos (d ρ : Int) (hd : 0 ≤ d) (hρ : 1 ≤ ρ) (hlt : ρ < d) :
    1 ≤ (d.tdiv ρ).toNat := by
  have e := Int.tdiv_add_tmod d ρ
  have hm : d.tmod ρ < ρ := Int.tmod_lt_of_pos d (by omega)
  have hq0 : 0 ≤ d.tdiv ρ := Int.tdiv_nonneg hd (by omega)
  have hq : d.tdiv ρ ≠ 0 := by
    intro h0
    rw [h0] at e
    simp at e
    omega
  omega

/-- The returned pattern is made of blocks of `(steps - pulses) / pulses` or one
more times `false` followed by `true`, the longer kind occurring only when
`pulses` does not divide `steps - pulses`. -/
theorem make_euclidean_rhythm_blocks (fuel : Nat) (steps pulses : Int) (h1 : 1 ≤ pulses)
    (h2 : pulses ≤ steps) (hf : pulses.toNat ≤ fuel) :
    ∃ p, make_euclidean_rhythm fuel steps pulses = .ok p ∧
      Blocks ((steps - pulses).tdiv pulses).toNat ((steps - pulses).tmod pulses ≠ 0) p := by
  obtain ⟨c, r, d, ρ, lev, _, hmake, hc, hr, hρ, hρ0, hρ1, hd, hlev, _, hinv⟩ :=
    make_euclidean_rhythm_spec
      (fun c r d lev =>
        (lev = 0 → c = [] ∧ r = [pulses] ∧ d = steps - pulses) ∧
        (1 ≤ lev → ∃ ρ, r[lev]? = some ρ ∧ ρ < d ∧
          Blocks ((steps - pulses).tdiv pulses).toNat ((steps - pulses).tmod pulses ≠ 0)
            (word c r (lev + 1)) ∧
          ((lev = 1 ∧ ρ = (steps - pulses).tmod pulses ∧
              word c r 2 = flat [((steps - pulses).tdiv pulses).toNat]) ∨
            ((steps - pulses).tmod pulses ≠ 0 ∧
              Blocks ((steps - pulses).tdiv pulses).toNat
                ((steps - pulses).tmod pulses ≠ 0) (word c r lev)))))
      (by
        intro c r d ρ lev hc hr hρ h1ρ hlevρ hd ⟨hinv0, hinv1⟩
        have hlast : (r ++ [d.tmod ρ])[lev + 1]? = some (d.tmod ρ) := by
          rw [List.getElem?_append_right (by omega)]
          simp [hr]
        have hmlt : d.tmod ρ < ρ := Int.tmod_lt_of_pos d (by omega)
        have hstepw := word_step c r (d.tdiv ρ) (d.tmod ρ) ρ lev hc hr hρ (by omega)
        refine ⟨fun h => absurd h (by omega), fun _ => ?_⟩
        rcases Nat.eq_zero_or_pos lev with h0 | hpos
        · subst h0
          obtain ⟨ec, er, ed⟩ := hinv0 rfl
          subst ec
          subst er
          subst ed
          simp only [List.getElem?_cons_zero, Option.some.injEq] at hρ
          subst hρ
          have hw : word ([] ++ [(steps - pulses).tdiv pulses])
              ([pulses] ++ [(steps - pulses).tmod pulses]) 2 =
              flat [((steps - pulses).tdiv pulses).toNat] := by
            rw [hstepw]
            simp [word, flatten_replicate_false, flat]
          refine ⟨_, hlast, hmlt, ?_, Or.inl ⟨rfl, rfl, hw⟩⟩
          rw [hw]
          exact Blocks_single _ _
        · obtain ⟨ρ', hρ', hlt, hB1, hdisj⟩ := hinv1 hpos
          rw [hρ] at hρ'
          cases hρ'
          have hρ2 : 1 < ρ := by
            rcases hlevρ with h | h
            · omega
            · exact h
          have hq := tdiv_toNat_pos d ρ hd h1ρ hlt
          have hW0 : word (c ++ [d.tdiv ρ]) (r ++ [d.tmod ρ]) (lev + 1) = word c r (lev + 1) :=
            word_append c r _ _ (lev + 1) (by omega) (by omega)
          rcases hdisj with ⟨e1, eρ, eW⟩ | ⟨htwo, hB0⟩
          · subst e1
            have htwo : (steps - pulses).tmod pulses ≠ 0 := by omega
            refine ⟨_, hlast, hmlt, ?_, Or.inr ⟨htwo, by rw [hW0]; exact hB1⟩⟩
            rw [hstepw, eW]
            have := Blocks_power_single ((steps - pulses).tdiv pulses).toNat
              ((steps - pulses).tmod pulses ≠ 0) (d.tdiv ρ).toNat 1 hq (Or.inr ⟨htwo, rfl⟩)
            simpa [word] using this
          · refine ⟨_, hlast, hmlt, ?_, Or.inr ⟨htwo, by rw [hW0]; exact hB1⟩⟩
            rw [hstepw]
            exact Blocks_append _ _ _ _ (Blocks_power _ _ _ hB1 _ hq) hB0)
      fuel steps pulses h1 h2 hf ⟨fun _ => ⟨rfl, rfl, rfl⟩, fun h => absurd h (by omega)⟩
  obtain ⟨ρ', hρ', _, hB1, hdisj⟩ := hinv hlev
  rw [hρ] at hρ'
  cases hρ'
  refine ⟨_, hmake, ?_⟩
  have hdn : 1 ≤ d.toNat := by omega
  have hcase : ρ = 0 ∨ ρ = 1 := by omega
  rcases hdisj with ⟨e1, eρ, eW⟩ | ⟨htwo, hB0⟩
  · subst e1
    rw [eW]
    rcases hcase with h | h
    · subst h
      have := Blocks_power_single ((steps - pulses).tdiv pulses).toNat
        ((steps - pulses).tmod pulses ≠ 0) d.toNat 0 hdn (Or.inl rfl)
      simpa using this
    · subst h
      have htwo : (steps - pulses).tmod pulses ≠ 0 := by omega
      have := Blocks_power_single ((steps - pulses).tdiv pulses).toNat
        ((steps - pulses).tmod pulses ≠ 0) d.toNat 1 hdn (Or.inr ⟨htwo, rfl⟩)
      simpa [word] using this
  · rcases hcase with h | h
    · subst h
      simpa using Blocks_power _ _ _ hB1 _ hdn
    · subst h
      simpa using Blocks_append _ _ _ _ (Blocks_power _ _ _ hB1 _ hdn) hB0

/-! ## Facts about floor, ceiling and cyclic positions -/

theorem floor_of_blocks (steps pulses : Int) (h1 : 1 ≤ pulses) (h2 : pulses ≤ steps) :
    ((((steps - pulses).tdiv pulses).toNat : Int) + 1 = steps / pulses) ∧
    ((steps - pulses).tmod pulses ≠ 0 →
      (((steps - pulses).tdiv pulses).toNat : Int) + 2 = (steps + pulses - 1) / pulses) ∧
    ((steps - pulses).tmod pulses = 0 → (steps + pulses - 1) / pulses = steps / pulses) ∧
    (pulses ∣ steps → (steps - pulses).tmod pulses = 0) := by
  have hd : 0 ≤ steps - pulses := by omega
  have hk : 0 ≤ pulses := by omega
  have hq : (steps - pulses).tdiv pulses = (steps - pulses) / pulses := Int.tdiv_eq_ediv hd hk
  have hm : (steps - pulses).tmod pulses = (steps - pulses) % pulses := Int.tmod_eq_emod hd hk
  have hq0 : 0 ≤ (steps - pulses) / pulses := Int.ediv_nonneg hd hk
  have hm0 : 0 ≤ (steps - pulses) % pulses := Int.emod_nonneg _ (by omega)
  have hmlt : (steps - pulses) % pulses < pulses := Int.emod_lt_of_pos _ (by omega)
  have e : pulses * ((steps - pulses) / pulses) + (steps - pulses) % pulses = steps - pulses :=
    Int.ediv_add_emod _ _
  rw [hq, hm, Int.toNat_of_nonneg hq0]
  have hfloor : steps / pulses = (steps - pulses) / pulses + 1 := by
    have := (Int.ediv_emod_unique (a := steps) (r := (steps - pulses) % pulses)
      (q := (steps - pulses) / pulses + 1) (by omega : 0 < pulses)).mpr
      ⟨by linear_combination e, hm0, hmlt⟩
    exact this.1
  refine ⟨hfloor.symm, ?_, ?_, ?_⟩
  · intro hne
    have := (Int.ediv_emod_unique (a := steps + pulses - 1)
      (r := (steps - pulses) % pulses - 1)
      (q := (steps - pulses) / pulses + 2) (by omega : 0 < pulses)).mpr
      ⟨by linear_combination e, by omega, by omega⟩
    exact this.1.symm
  · intro h0
    rw [h0] at e
    have := (Int.ediv_emod_unique (a := steps + pulses - 1) (r := pulses - 1)
      (q := (steps - pulses) / pulses + 1) (by omega : 0 < pulses)).mpr
      ⟨by linear_combination e, by omega, by omega⟩
    rw [this.1, hfloor]
  · intro hdvd
    have : pulses ∣ steps - pulses := Int.dvd_sub hdvd (Int.dvd_refl _)
    exact Int.emod_eq_zero_of_dvd this

/-- Going round a list from the position after an element: position `j` of the
continuation is position `(i + 1 + j) mod length` of the list. -/
theorem cyclic_getElem {α : Type} (u v : List α) (x : α) (j : Nat)
    (hj : j < (u ++ x :: v).length) :
    (v ++ u ++ [x])[j]? = (u ++ x :: v)[(u.length + 1 + j) % (u ++ x :: v).length]? := by
  have hlen : (u ++ x :: v).length = u.length + 1 + v.length := by simp; omega
  rw [hlen] at hj ⊢
  by_cases hjv : j < v.length
  · rw [Nat.mod_eq_of_lt (by omega), List.append_assoc, List.getElem?_append_left hjv,
      List.getElem?_append_right (by omega)]
    have : u.length + 1 + j - u.length = j + 1 := by omega
    rw [this]
    simp
  · have hmod : (u.length + 1 + j) % (u.length + 1 + v.length) = j - v.length := by
      have : u.length + 1 + j = (j - v.length) + (u.length + 1 + v.length) := by omega
      rw [this, Nat.add_mod_right, Nat.mod_eq_of_lt (by omega)]
    rw [hmod, List.append_assoc, List.getElem?_append_right (by omega)]
    have e : u ++ x :: v = (u ++ [x]) ++ v := by simp
    have hl : j - v.length < (u ++ [x]).length := by
      rw [List.length_append, List.length_singleton]
      omega
    rw [e, @List.getElem?_append_left _ (u ++ [x]) v _ hl]

/-- From the block form to positions: after a `true` at position `i` the next
`true`, going round, is `g + 1` positions on, with `false` in between. -/
theorem cyclic_gap (p : List Bool) (i g : Nat) (rest : List Bool)
    (hi : p[i]? = some true)
    (h : List.drop (i + 1) p ++ List.take i p ++ [true] =
      List.replicate g false ++ true :: rest) :
    p[(i + (g + 1)) % p.length]? = some true ∧
    ∀ d' : Nat, 1 ≤ d' → d' < g + 1 → p[(i + d') % p.length]? = some false := by
  obtain ⟨hlt, hval⟩ := List.getElem?_eq_some.mp hi
  have hsplit : p = List.take i p ++ true :: List.drop (i + 1) p := by
    conv_lhs => rw [← List.take_append_drop i p, List.drop_eq_getElem_cons hlt, hval]
  have hlu : (List.take i p).length = i := by simp; omega
  have hglen : g + 1 + rest.length = p.length := by
    have := congrArg List.length h
    simp at this
    omega
  have key : ∀ j, j < p.length →
      (List.replicate g false ++ true :: rest)[j]? = p[(i + 1 + j) % p.length]? := by
    intro j hj
    rw [← h]
    have := cyclic_getElem (List.take i p) (List.drop (i + 1) p) true j (by rw [← hsplit]; exact hj)
    rw [← hsplit, hlu] at this
    exact this
  constructor
  · have := key g (by omega)
    rw [List.getElem?_append_right (by simp)] at this
    simp only [List.length_replicate, Nat.sub_self, List.getElem?_cons_zero] at this
    have e : i + (g + 1) = i + 1 + g := by omega
    rw [e]
    exact this.symm
  · intro d' h1 h2
    have := key (d' - 1) (by omega)
    rw [List.getElem?_append_left (by simp; omega),
      List.getElem?_replicate_of_lt (by omega)] at this
    have e : i + 1 + (d' - 1) = i + d' := by omega
    rw [e] at this
    exact this.symm

/-! ## Facts about single-precision rounding -/

/-- A rational is the quotient of its numerator and denominator, once both are known. -/
theorem rat_eq_of_num_den (q : ℚ) (n : Int) (d : Nat) (hn : q.num = n) (hd : q.den = d) :
    q = (n : ℚ) / (d : ℚ) := by
  rw [← hn, ← hd]; exact (Rat.num_div_den q).symm

/-- The integer nearest to `x` is at most one half away from `x`. -/
theorem roundNearestEven_error (x : ℚ) : |(roundNearestEven x : ℚ) - x| ≤ 1 / 2 := by
  have h1 : ((x.floor : Int) : ℚ) ≤ x := Int.floor_le x
  have h2 : x < ((x.floor : Int) : ℚ) + 1 := Int.lt_floor_add_one x
  unfold roundNearestEven
  simp only
  rw [abs_le]
  split_ifs with ha hb hc
  · constructor <;> linarith
  · push_cast; constructor <;> linarith
  · push_neg at ha hb
    constructor <;> linarith
  · push_neg at ha hb
    push_cast; constructor <;> linarith

/-- The `float` values of the literals `0.1f` and `0.3f` (bit patterns
`0x3DCCCCCD` and `0x3E99999A`). -/
theorem roundFloat_literals :
    roundFloat (1/10) = 13421773 / 2 ^ 27 ∧ roundFloat (3/10) = 5033165 / 2 ^ 24 := by
  constructor
  · rw [rat_eq_of_num_den (roundFloat (1/10)) 13421773 (2 ^ 27)
      (by with_unfolding_all decide) (by with_unfolding_all decide)]
    norm_num
  · rw [rat_eq_of_num_den (roundFloat (3/10)) 5033165 (2 ^ 24)
      (by with_unfolding_all decide) (by with_unfolding_all decide)]
    norm_num

/-- On the concrete scenario no operation rounds: the resolution in `float`
gives the rectangle `(10,10)-(400,90)` of the exact resolution. -/
theorem resolveFloat_scenario :
    (resolveFloat ⟨0, 0, 800, 600⟩ scenarioPlacement).x0 = 10 ∧
    (resolveFloat ⟨0, 0, 800, 600⟩ scenarioPlacement).y0 = 10 ∧
    (resolveFloat ⟨0, 0, 800, 600⟩ scenarioPlacement).x1 = 400 ∧
    (resolveFloat ⟨0, 0, 800, 600⟩ scenarioPlacement).y1 = 90 := by
  refine ⟨?_, ?_, ?_, ?_⟩ <;> with_unfolding_all decide

/-- The parent sizes, the scale factor and the fractions of the counterexample
to size scaling are `float` values: rounding leaves them unchanged. -/
theorem roundFloat_inputs :
    roundFloat 800 = 800 ∧ roundFloat 600 = 600 ∧ roundFloat 3 = 3 ∧
    roundFloat (roundFloat (1/10)) = roundFloat (1/10) ∧
    roundFloat (roundFloat (3/10)) = roundFloat (3/10) ∧
    (Rect.scaleSize floatParent 3).x1 = floatMul 3 floatParent.widthFloat ∧
    (Rect.scaleSize floatParent 3).y1 = floatMul 3 floatParent.heightFloat := by
  refine ⟨?_, ?_, ?_, ?_, ?_, ?_, ?_⟩
  · rw [rat_eq_of_num_den (roundFloat 800) 800 1
      (by with_unfolding_all decide) (by with_unfolding_all decide)]
    norm_num
  · rw [rat_eq_of_num_den (roundFloat 600) 600 1
      (by with_unfolding_all decide) (by with_unfolding_all decide)]
    norm_num
  · with_unfolding_all decide
  · rw [rat_eq_of_num_den (roundFloat (roundFloat (1/10))) 13421773 (2 ^ 27)
      (by with_unfolding_all decide) (by with_unfolding_all decide), roundFloat_literals.1]
    norm_num
  · rw [rat_eq_of_num_den (roundFloat (roundFloat (3/10))) 5033165 (2 ^ 24)
      (by with_unfolding_all decide) (by with_unfolding_all decide), roundFloat_literals.2]
    norm_num
  · rw [rat_eq_of_num_den (floatMul 3 floatParent.widthFloat) 2400 1
      (by with_unfolding_all decide) (by with_unfolding_all decide)]
    norm_num [Rect.scaleSize, floatParent, Rect.width]
  · rw [rat_eq_of_num_den (floatMul 3 floatParent.heightFloat) 1800 1
      (by with_unfolding_all decide) (by with_unfolding_all decide)]
    norm_num [Rect.scaleSize, floatParent, Rect.height]

/-! ## Placement resolution and layout -/

/-- C1: for every parent rectangle and every placement (fractions of any
value), each edge of the resolved child rectangle is the parent's minimum on
that axis plus the fraction times the parent's size (max minus min) on that
axis plus the offset. -/
theorem resolve_edges (P : Rect) (pl : Placement) :
    (resolve P pl).x0 = P.x0 + pl.x0.fraction * (P.x1 - P.x0) + pl.x0.offset ∧
    (resolve P pl).x1 = P.x0 + pl.x1.fraction * (P.x1 - P.x0) + pl.x1.offset ∧
    (resolve P pl).y0 = P.y0 + pl.y0.fraction * (P.y1 - P.y0) + pl.y0.offset ∧
    (resolve P pl).y1 = P.y0 + pl.y1.fraction * (P.y1 - P.y0) + pl.y1.offset := by
  simp [resolve, Rect.width, Rect.height]

/-- C2: every non-root node of a tree (the node at path `p ++ [i]`) is still
there after `layout()`, still has its own placement, and its bounds equal
`resolve` of the bounds its parent has after the same layout pass and that
placement. -/
theorem layout_top_down (t : UIComponent) (p : Path) (i : Nat) (c0 : UIComponent)
    (h : t.nodeAt (p ++ [i]) = some c0) :
    ∃ par c, t.layout.nodeAt p = some par ∧ t.layout.nodeAt (p ++ [i]) = some c ∧
      c.placement = c0.placement ∧ c.bounds = resolve par.bounds c0.placement := by
  rw [nodeAt_append] at h
  cases hp : t.nodeAt p with
  | none => simp [hp] at h
  | some par0 =>
    simp only [hp, Option.some_bind, nodeAt_singleton] at h
    obtain ⟨b, hb⟩ := layout_nodeAt p t par0 hp
    refine ⟨_, layoutChild b c0, hb, ?_, ?_, ?_⟩
    · have hcs : (UIComponent.mk par0.style par0.control b par0.placement
          (layoutChildren b par0.children)).children = layoutChildren b par0.children := rfl
      rw [nodeAt_append, hb]
      simp [nodeAt_singleton, hcs, layoutChildren_getElem?, h]
    · cases c0; simp [layoutChild, UIComponent.placement]
    · cases c0; simp [layoutChild, UIComponent.placement, UIComponent.bounds]

/-- C2 on a three-level tree root -> child -> grandchild: the grandchild at
path `[0, 0]` satisfies the formula against the child's bounds after layout. -/
theorem layout_top_down_witness :
    (plainNode ⟨0, 0, 800, 600⟩
        [.mk appStyleSheet .component ⟨0, 0, 0, 0⟩ scenarioPlacement
          [.mk appStyleSheet .component ⟨0, 0, 0, 0⟩ scenarioPlacement []]]).nodeAt ([0] ++ [0]) =
      some (.mk appStyleSheet .component ⟨0, 0, 0, 0⟩ scenarioPlacement []) ∧
    ∃ par c,
      (plainNode ⟨0, 0, 800, 600⟩
        [.mk appStyleSheet .component ⟨0, 0, 0, 0⟩ scenarioPlacement
          [.mk appStyleSheet .component ⟨0, 0, 0, 0⟩ scenarioPlacement []]]).layout.nodeAt [0] =
        some par ∧
      (plainNode ⟨0, 0, 800, 600⟩
        [.mk appStyleSheet .component ⟨0, 0, 0, 0⟩ scenarioPlacement
          [.mk appStyleSheet .component ⟨0, 0, 0, 0⟩ scenarioPlacement []]]).layout.nodeAt
          ([0] ++ [0]) = some c ∧
      c.placement =
        (UIComponent.mk appStyleSheet .component ⟨0, 0, 0, 0⟩ scenarioPlacement []).placement ∧
      c.bounds = resolve par.bounds
        (UIComponent.mk appStyleSheet .component ⟨0, 0, 0, 0⟩ scenarioPlacement []).placement :=
  ⟨by simp [plainNode, UIComponent.nodeAt], layout_top_down _ [0] 0 _
    (by simp [plainNode, UIComponent.nodeAt])⟩

/-- C3 as stated fails: with a root of 800x600 at the origin and one child
added with placement `{{0,10},{0,10},{0.5,0},{0,90}}`, the child's rectangle
after `layout()` is not `(10,10)-(400,100)`. -/
theorem scenario_not_400_100 :
    (((plainNode ⟨0, 0, 800, 600⟩ []).add_child scenarioPlacement
        (plainNode ⟨0, 0, 0, 0⟩ [])).layout.children.map UIComponent.bounds) ≠
      [⟨10, 10, 400, 100⟩] := by
  norm_num [plainNode, UIComponent.add_child, UIComponent.layout, layoutChildren, layoutChild,
    UIComponent.children, UIComponent.bounds, resolve, scenarioPlacement, Rect.width,
    Rect.height]

/-- C3, amended: with a root whose bounds are `(0,0)-(800,600)` and which has
no children yet, adding one child with placement
`{{0,10},{0,10},{0.5,0},{0,90}}` and calling `layout()` gives that child the
rectangle `(10,10)-(400,90)`. -/
theorem scenario_resolves (root child : UIComponent)
    (hb : root.bounds = ⟨0, 0, 800, 600⟩) (hc : root.children = []) :
    ((root.add_child scenarioPlacement child).layout.children.map UIComponent.bounds) =
      [⟨10, 10, 400, 90⟩] := by
  cases root with
  | mk s k b pl cs =>
    cases child with
    | mk s' k' b' pl' cs' =>
      simp only [UIComponent.bounds, UIComponent.children] at hb hc
      subst hb hc
      norm_num [UIComponent.add_child, UIComponent.layout, layoutChildren, layoutChild,
        UIComponent.children, UIComponent.bounds, resolve, scenarioPlacement, Rect.width,
        Rect.height]

/-- C3, amended, at the concrete root and child of the scenario. -/
theorem scenario_resolves_witness :
    (plainNode ⟨0, 0, 800, 600⟩ []).bounds = ⟨0, 0, 800, 600⟩ ∧
    (plainNode ⟨0, 0, 800, 600⟩ []).children = [] ∧
    (((plainNode ⟨0, 0, 800, 600⟩ []).add_child scenarioPlacement
        (plainNode ⟨0, 0, 0, 0⟩ [])).layout.children.map UIComponent.bounds) =
      [⟨10, 10, 400, 90⟩] :=
  ⟨rfl, rfl, scenario_resolves _ _ rfl rfl⟩

/-- C4: `layout()` is idempotent: laying out an already laid-out tree (same
root bounds, same children lists, same placements) returns the same tree, so
every node's bounds are those of the first call. -/
theorem layout_idempotent (t : UIComponent) : t.layout.layout = t.layout := by
  cases t with
  | mk s k b pl cs => simp [UIComponent.layout, layoutChildren_idem]

/-- C5, amended: in exact arithmetic (the resolution computed without
floating-point rounding), with a placement whose four offsets are zero,
resolving against a parent whose width and height are `k` times those of `P`
gives a child whose width and height are `k` times those obtained against `P`. -/
theorem resolve_size_scales (P P' : Rect) (pl : Placement) (k : ℚ)
    (hx0 : pl.x0.offset = 0) (hy0 : pl.y0.offset = 0)
    (hx1 : pl.x1.offset = 0) (hy1 : pl.y1.offset = 0)
    (hw : P'.width = k * P.width) (hh : P'.height = k * P.height) :
    (resolve P' pl).width = k * (resolve P pl).width ∧
    (resolve P' pl).height = k * (resolve P pl).height := by
  simp only [resolve, Rect.width, Rect.height, hx0, hy0, hx1, hy1] at *
  constructor
  · linear_combination (pl.x1.fraction - pl.x0.fraction) * hw
  · linear_combination (pl.y1.fraction - pl.y0.fraction) * hh

/-- C5, amended, at the parent `(5,7)-(805,607)` with its size scaled by `3`
and the placement with fractions `1/4 .. 1/2` on x and `0 .. 1` on y. -/
theorem resolve_size_scales_witness :
    (⟨⟨1/4, 0⟩, ⟨0, 0⟩, ⟨1/2, 0⟩, ⟨1, 0⟩⟩ : Placement).x0.offset = 0 ∧
    (Rect.scaleSize ⟨5, 7, 805, 607⟩ 3).width = 3 * (⟨5, 7, 805, 607⟩ : Rect).width ∧
    (resolve (Rect.scaleSize ⟨5, 7, 805, 607⟩ 3) ⟨⟨1/4, 0⟩, ⟨0, 0⟩, ⟨1/2, 0⟩, ⟨1, 0⟩⟩).width =
      3 * (resolve ⟨5, 7, 805, 607⟩ ⟨⟨1/4, 0⟩, ⟨0, 0⟩, ⟨1/2, 0⟩, ⟨1, 0⟩⟩).width ∧
    (resolve (Rect.scaleSize ⟨5, 7, 805, 607⟩ 3) ⟨⟨1/4, 0⟩, ⟨0, 0⟩, ⟨1/2, 0⟩, ⟨1, 0⟩⟩).height =
      3 * (resolve ⟨5, 7, 805, 607⟩ ⟨⟨1/4, 0⟩, ⟨0, 0⟩, ⟨1/2, 0⟩, ⟨1, 0⟩⟩).height :=
  ⟨rfl, by norm_num [Rect.scaleSize, Rect.width],
    resolve_size_scales ⟨5, 7, 805, 607⟩ (Rect.scaleSize ⟨5, 7, 805, 607⟩ 3)
      ⟨⟨1/4, 0⟩, ⟨0, 0⟩, ⟨1/2, 0⟩, ⟨1, 0⟩⟩ 3 rfl rfl rfl rfl
      (by norm_num [Rect.scaleSize, Rect.width])
      (by norm_num [Rect.scaleSize, Rect.width, Rect.height])⟩

/-- C5 as stated fails on `float` fields.  Parent `(0,0)-(800,600)`, scale
factor `3` (parent `(0,0)-(2400,1800)`), x fractions `0.1f` and `0.3f`, all
offsets zero: the resolved width is `160 + 1/65536` against the parent and
exactly `480` against the scaled parent, while three times the former is
`480 + 3/65536`, and `480 + 1/16384` when that product is rounded to `float`. -/
theorem resolve_size_not_scaled_in_float :
    (floatPlacement.x0.offset = 0 ∧ floatPlacement.y0.offset = 0 ∧
      floatPlacement.x1.offset = 0 ∧ floatPlacement.y1.offset = 0) ∧
    Rect.scaleSize floatParent 3 = ⟨0, 0, 2400, 1800⟩ ∧
    (resolveFloat floatParent floatPlacement).widthFloat = 160 + 1 / 65536 ∧
    (resolveFloat (Rect.scaleSize floatParent 3) floatPlacement).widthFloat = 480 ∧
    floatMul 3 (resolveFloat floatParent floatPlacement).widthFloat = 480 + 1 / 16384 ∧
    (resolveFloat (Rect.scaleSize floatParent 3) floatPlacement).widthFloat ≠
      3 * (resolveFloat floatParent floatPlacement).widthFloat ∧
    (resolveFloat (Rect.scaleSize floatParent 3) floatPlacement).widthFloat ≠
      floatMul 3 (resolveFloat floatParent floatPlacement).widthFloat := by
  refine ⟨⟨rfl, rfl, rfl, rfl⟩, ?_, ?_, ?_, ?_, ?_, ?_⟩
  · norm_num [Rect.scaleSize, floatParent, Rect.width, Rect.height]
  · rw [rat_eq_of_num_den (resolveFloat floatParent floatPlacement).widthFloat 10485761 65536
      (by with_unfolding_all decide) (by with_unfolding_all decide)]
    norm_num
  · with_unfolding_all decide
  · rw [rat_eq_of_num_den (floatMul 3 (resolveFloat floatParent floatPlacement).widthFloat)
      7864321 16384 (by with_unfolding_all decide) (by with_unfolding_all decide)]
    norm_num
  · with_unfolding_all decide
  · with_unfolding_all decide

/-- C6: `add_child(placement, child)` appends the child as the last element
of the children sequence with the given placement recorded, keeps the
earlier children in order, and changes no bounds: the parent's bounds are
kept, every node that was in the parent's subtree before is unchanged, and
the new child keeps its bounds and its own children. -/
theorem add_child_appends (this child : UIComponent) (pl : Placement) :
    (this.add_child pl child).children =
      this.children ++ [.mk child.style child.control child.bounds pl child.children] ∧
    (this.add_child pl child).bounds = this.bounds ∧
    (∀ (p : Path) (n : UIComponent), p ≠ [] → this.nodeAt p = some n →
      (this.add_child pl child).nodeAt p = some n) ∧
    ∃ c, (this.add_child pl child).nodeAt [this.children.length] = some c ∧
      c.placement = pl ∧ c.bounds = child.bounds ∧ c.children = child.children := by
  cases this with
  | mk s k b p0 cs =>
    cases child with
    | mk s' k' b' p' cs' =>
      refine ⟨rfl, rfl, ?_, ⟨.mk s' k' b' pl cs', ?_, rfl, rfl, rfl⟩⟩
      · intro p n hp h
        cases p with
        | nil => exact absurd rfl hp
        | cons i q =>
          simp only [UIComponent.nodeAt, UIComponent.add_child] at h ⊢
          cases hc : cs[i]? with
          | none => simp [hc] at h
          | some d =>
            have hi : i < cs.length := by
              by_contra hlt
              rw [List.getElem?_eq_none (Nat.le_of_not_lt hlt)] at hc
              cases hc
            rw [List.getElem?_append_left hi, hc]
            simpa [hc] using h
      · simp [UIComponent.nodeAt, UIComponent.add_child, UIComponent.children]

/-! ## Input dispatch -/

/-- C7: `handle_input` invokes the input hook of the node at path `p` if and
only if that node exists and the cursor is inside its bounds and inside the
bounds of every one of its ancestors up to and including the root; no node
is delivered the event twice: the sequence of deliveries has no duplicates and
each such node stands at exactly one position of it. -/
theorem handle_input_delivers (s : UISurface) (event : InputEvent) (p : Path) :
    (p ∈ s.handle_input event ↔
      (∃ n, s.root.nodeAt p = some n) ∧
        ∀ (q : Path) (m : UIComponent), q <+: p → s.root.nodeAt q = some m →
          m.bounds.inside event.cursor = true) ∧
    (s.handle_input event).Nodup ∧
    (p ∈ s.handle_input event → ∃! i : Nat, (s.handle_input event)[i]? = some p) :=
  ⟨mem_handle_input_iff s event p, input_nodup event [] s.root,
    fun h => unique_position_of_nodup _ p (input_nodup event [] s.root) h⟩

/-- C8: whenever two nodes both pass all gates for the cursor (each
exists, and the cursor is inside its bounds and those of all its ancestors),
`handle_input` delivers the event to both of them. -/
theorem multi_hit_dispatch (s : UISurface) (event : InputEvent) (p q : Path)
    (hp : InsideAll s.root event.cursor p) (hq : InsideAll s.root event.cursor q) :
    p ∈ s.handle_input event ∧ q ∈ s.handle_input event :=
  ⟨(mem_handle_input_iff s event p).mpr hp, (mem_handle_input_iff s event q).mpr hq⟩

/-- C8 on two overlapping siblings under a root, all three containing the
cursor position `(5,5)`: both siblings receive the event, the one added
first as well as the one added last. -/
theorem multi_hit_dispatch_witness :
    ([0] : Path) ≠ [1] ∧
    InsideAll (surfaceOf overlapTree).root (cursorAt 5 5).cursor [0] ∧
    InsideAll (surfaceOf overlapTree).root (cursorAt 5 5).cursor [1] ∧
    ([0] ∈ (surfaceOf overlapTree).handle_input (cursorAt 5 5) ∧
      [1] ∈ (surfaceOf overlapTree).handle_input (cursorAt 5 5)) ∧
    (surfaceOf overlapTree).handle_input (cursorAt 5 5) = [[], [0], [1]] :=
  have h0 : InsideAll (surfaceOf overlapTree).root (cursorAt 5 5).cursor [0] :=
    (passesGates_iff _ _ _).mp (by
      norm_num [passesGates, surfaceOf, overlapTree, plainNode, cursorAt, Rect.inside,
        UIComponent.bounds])
  have h1 : InsideAll (surfaceOf overlapTree).root (cursorAt 5 5).cursor [1] :=
    (passesGates_iff _ _ _).mp (by
      norm_num [passesGates, surfaceOf, overlapTree, plainNode, cursorAt, Rect.inside,
        UIComponent.bounds])
  ⟨by decide, h0, h1,
    multi_hit_dispatch (surfaceOf overlapTree) (cursorAt 5 5) [0] [1] h0 h1,
    by norm_num [UISurface.handle_input, input, inputChildren, surfaceOf, overlapTree,
      plainNode, cursorAt, Rect.inside]⟩

/-- C9: if the cursor lies outside the bounds of the node at path `p`, then
neither that node nor any descendant of it (any node whose path extends `p`)
receives the event, whatever the descendant's own bounds are. -/
theorem gate_blocks_subtree (s : UISurface) (event : InputEvent) (p : Path) (n : UIComponent)
    (hn : s.root.nodeAt p = some n) (hout : n.bounds.inside event.cursor = false)
    (q : Path) (hq : p <+: q) : q ∉ s.handle_input event := by
  intro h
  have hin := ((mem_handle_input_iff s event q).mp h).2 p n hq hn
  rw [hout] at hin
  cases hin

/-- C9 on a laid-out tree whose grandchild `(50,50)-(60,60)` lies entirely
outside its parent `(0,0)-(10,10)`: with the cursor at `(55,55)`, inside the
root and inside the grandchild, the grandchild does not receive the event;
only the root does. -/
theorem gate_blocks_subtree_witness :
    (surfaceOf outsideTree).root.nodeAt [0] =
      some (.mk appStyleSheet .component ⟨0, 0, 10, 10⟩ ⟨⟨0, 0⟩, ⟨0, 0⟩, ⟨0, 10⟩, ⟨0, 10⟩⟩
        [.mk appStyleSheet .component ⟨50, 50, 60, 60⟩
          ⟨⟨0, 50⟩, ⟨0, 50⟩, ⟨0, 60⟩, ⟨0, 60⟩⟩ []]) ∧
    (Rect.mk 0 0 10 10).inside (cursorAt 55 55).cursor = false ∧
    (Rect.mk 50 50 60 60).inside (cursorAt 55 55).cursor = true ∧
    [0, 0] ∉ (surfaceOf outsideTree).handle_input (cursorAt 55 55) ∧
    (surfaceOf outsideTree).handle_input (cursorAt 55 55) = [[]] :=
  have hn : (surfaceOf outsideTree).root.nodeAt [0] =
      some (.mk appStyleSheet .component ⟨0, 0, 10, 10⟩ ⟨⟨0, 0⟩, ⟨0, 0⟩, ⟨0, 10⟩, ⟨0, 10⟩⟩
        [.mk appStyleSheet .component ⟨50, 50, 60, 60⟩
          ⟨⟨0, 50⟩, ⟨0, 50⟩, ⟨0, 60⟩, ⟨0, 60⟩⟩ []]) := by
    norm_num [surfaceOf, outsideTree, plainNode, UIComponent.add_child, UIComponent.layout,
      layoutChildren, layoutChild, resolve, Rect.width, Rect.height, UIComponent.nodeAt]
  have hout : (Rect.mk 0 0 10 10).inside (cursorAt 55 55).cursor = false := by
    norm_num [Rect.inside, cursorAt]
  ⟨hn, hout, by norm_num [Rect.inside, cursorAt],
    gate_blocks_subtree (surfaceOf outsideTree) (cursorAt 55 55) [0] _ hn hout [0, 0]
      (by decide),
    by norm_num [UISurface.handle_input, input, inputChildren, surfaceOf, outsideTree,
      plainNode, UIComponent.add_child, UIComponent.layout, layoutChildren, layoutChild,
      resolve, Rect.width, Rect.height, cursorAt, Rect.inside]⟩

/-! ## Render traversal -/

/-- C10: the sequence of nodes whose render hook `draw()` invokes is the
pre-order listing of the tree (a node, then the full subtree of each of its
children in insertion order); it lists exactly the nodes of the tree, each
once, and a node's hook is invoked at an earlier position than the hook of
any of its descendants. -/
theorem draw_is_preorder (s : UISurface) :
    s.draw.map RenderCall.control = preorder [] s.root ∧
    (∀ p : Path, p ∈ s.draw.map RenderCall.control ↔ ∃ n, s.root.nodeAt p = some n) ∧
    (s.draw.map RenderCall.control).Nodup ∧
    ∀ (i j : Nat) (p q : Path), (s.draw.map RenderCall.control)[i]? = some p →
      (s.draw.map RenderCall.control)[j]? = some q → p <+: q → p ≠ q → i < j := by
  rw [draw_control]
  refine ⟨rfl, ?_, preorder_nodup [] s.root, ?_⟩
  · intro p
    simpa using mem_preorder_iff p s.root []
  · intro i j p q hi hj hpq hne
    exact preorder_positions [] s.root i j p q hi hj hpq hne

/-- C11: three siblings, children number `i < j < k` of the same parent (the
order in which they were added), have their render hooks invoked by `draw()`
in that order, whatever their bounds. -/
theorem sibling_paint_order (s : UISurface) (p : Path) (i j k : Nat) (hij : i < j) (hjk : j < k)
    (a b c : Nat)
    (ha : (s.draw.map RenderCall.control)[a]? = some (p ++ [i]))
    (hb : (s.draw.map RenderCall.control)[b]? = some (p ++ [j]))
    (hc : (s.draw.map RenderCall.control)[c]? = some (p ++ [k])) :
    a < b ∧ b < c := by
  rw [draw_control] at ha hb hc
  have hnd := preorder_nodup [] s.root
  have hi := List.mem_iff_getElem?.mpr ⟨a, ha⟩
  have hj := List.mem_iff_getElem?.mpr ⟨b, hb⟩
  have hk := List.mem_iff_getElem?.mpr ⟨c, hc⟩
  constructor
  · exact lt_of_sublist_pair _ _ _ hnd
      (preorder_sibling_pair p _ _ i j hij s.root [] (by simp) (by simp) hi hj) a b ha hb
  · exact lt_of_sublist_pair _ _ _ hnd
      (preorder_sibling_pair p _ _ j k hjk s.root [] (by simp) (by simp) hj hk) b c hb hc

/-- C11 on three overlapping siblings added in order to a root of 100x100: after
layout their rectangles are `(0,0)-(100,100)`, `(10,10)-(90,90)` and
`(20,20)-(100,100)`, and their hooks run at positions 1, 2 and 3. -/
theorem sibling_paint_order_witness :
    siblingsTree.children.map UIComponent.bounds =
      [⟨0, 0, 100, 100⟩, ⟨10, 10, 90, 90⟩, ⟨20, 20, 100, 100⟩] ∧
    ((surfaceOf siblingsTree).draw.map RenderCall.control)[1]? = some ([] ++ [0]) ∧
    ((surfaceOf siblingsTree).draw.map RenderCall.control)[2]? = some ([] ++ [1]) ∧
    ((surfaceOf siblingsTree).draw.map RenderCall.control)[3]? = some ([] ++ [2]) ∧
    (1 < 2 ∧ 2 < 3) :=
  have h1 : ((surfaceOf siblingsTree).draw.map RenderCall.control)[1]? = some ([] ++ [0]) := by
    simp [UISurface.draw, render, renderChildren, surfaceOf, siblingsTree, plainNode,
      UIComponent.add_child, UIComponent.layout, layoutChildren, layoutChild]
  have h2 : ((surfaceOf siblingsTree).draw.map RenderCall.control)[2]? = some ([] ++ [1]) := by
    simp [UISurface.draw, render, renderChildren, surfaceOf, siblingsTree, plainNode,
      UIComponent.add_child, UIComponent.layout, layoutChildren, layoutChild]
  have h3 : ((surfaceOf siblingsTree).draw.map RenderCall.control)[3]? = some ([] ++ [2]) := by
    simp [UISurface.draw, render, renderChildren, surfaceOf, siblingsTree, plainNode,
      UIComponent.add_child, UIComponent.layout, layoutChildren, layoutChild]
  ⟨by norm_num [siblingsTree, siblingPlacements, plainNode, UIComponent.add_child,
      UIComponent.layout, layoutChildren, layoutChild, UIComponent.children,
      UIComponent.bounds, resolve, Rect.width, Rect.height],
    h1, h2, h3,
    sibling_paint_order (surfaceOf siblingsTree) [] 0 1 2 (by decide) (by decide) 1 2 3 h1 h2 h3⟩

/-- C12: `draw()` invokes the render hook of every node of the tree at exactly
one position of the sequence and of nothing else, and the sequence does not
depend on bounds: replacing the bounds of all nodes by any others (zero-size,
inverted, off-screen) leaves the sequence of invocations the same. -/
theorem draw_no_culling (s : UISurface) :
    (∀ p : Path, (∃ n, s.root.nodeAt p = some n) →
      ∃! i : Nat, (s.draw.map RenderCall.control)[i]? = some p) ∧
    (∀ p : Path, p ∈ s.draw.map RenderCall.control → ∃ n, s.root.nodeAt p = some n) ∧
    (∀ g : Path → Rect,
      (UISurface.mk s.nvg s.text_fontface s.icon_fontface (withBounds g [] s.root)
        s.stylesheet).draw = s.draw) := by
  refine ⟨?_, ?_, ?_⟩
  · intro p hp
    rw [draw_control]
    exact unique_position_of_nodup _ p (preorder_nodup [] s.root)
      (by simpa using (mem_preorder_iff p s.root []).mpr hp)
  · intro p hp
    rw [draw_control] at hp
    exact (mem_preorder_iff p s.root []).mp (by simpa using hp)
  · intro g
    simp [UISurface.draw, render_withBounds]

/-- C13: the input hooks invoked for one event form the pre-order listing of
the tree restricted to the nodes that pass all gates; so a node's hook runs
before the hook of any of its descendants, and of two children of the same
node that both receive the event the one inserted earlier runs first. -/
theorem input_priority_order (s : UISurface) (event : InputEvent) :
    s.handle_input event =
      (preorder [] s.root).filter (fun p => passesGates event.cursor s.root p) ∧
    (∀ (a b : Nat) (p q : Path), (s.handle_input event)[a]? = some p →
      (s.handle_input event)[b]? = some q → p <+: q → p ≠ q → a < b) ∧
    (∀ (a b : Nat) (p : Path) (i j : Nat), (s.handle_input event)[a]? = some (p ++ [i]) →
      (s.handle_input event)[b]? = some (p ++ [j]) → i < j → a < b) := by
  have hsub : (s.handle_input event).Sublist (preorder [] s.root) :=
    input_sublist event [] s.root
  have hnd := preorder_nodup [] s.root
  have hnd' : (s.handle_input event).Nodup := input_nodup event [] s.root
  refine ⟨?_, ?_, ?_⟩
  · refine eq_filter_of_sublist _ _ _ hsub hnd ?_
    intro x
    constructor
    · intro hx
      have := (mem_input_root_iff event s.root x).mp hx
      exact ⟨passesGates_mem_preorder _ _ _ this, this⟩
    · rintro ⟨_, hx⟩
      exact (mem_input_root_iff event s.root x).mpr hx
  · intro a b p q ha hb hpq hne
    have hp := List.mem_iff_getElem?.mpr ⟨a, ha⟩
    have hq := List.mem_iff_getElem?.mpr ⟨b, hb⟩
    have h1 := preorder_sublist_pair [] s.root p q (hsub.subset hp) (hsub.subset hq) hpq hne
    exact lt_of_sublist_pair _ _ _ hnd' (sublist_pair_of_sublist p q _ _ hsub hnd h1 hp hq)
      a b ha hb
  · intro a b p i j ha hb hij
    have hp := List.mem_iff_getElem?.mpr ⟨a, ha⟩
    have hq := List.mem_iff_getElem?.mpr ⟨b, hb⟩
    have h1 := preorder_sibling_pair p _ _ i j hij s.root [] (by simp) (by simp)
      (hsub.subset hp) (hsub.subset hq)
    exact lt_of_sublist_pair _ _ _ hnd' (sublist_pair_of_sublist _ _ _ _ hsub hnd h1 hp hq)
      a b ha hb

/-- C14: a rectangle whose maximum edge is not greater than its minimum edge on
some axis contains no cursor position, so a node with such bounds, and every
node below it, receives no input event. -/
theorem degenerate_hit_test_empty (r : Rect) (hdeg : r.x1 ≤ r.x0 ∨ r.y1 ≤ r.y0) :
    (∀ cursor : ℚ × ℚ, r.inside cursor = false) ∧
    ∀ (s : UISurface) (event : InputEvent) (p q : Path) (n : UIComponent),
      s.root.nodeAt p = some n → n.bounds = r → p <+: q → q ∉ s.handle_input event := by
  have hin : ∀ cursor : ℚ × ℚ, r.inside cursor = false := by
    intro cursor
    by_contra h
    simp only [Rect.inside, Bool.not_eq_false, Bool.and_eq_true, decide_eq_true_eq] at h
    rcases hdeg with hd | hd
    · linarith [h.1.1.1, h.1.2]
    · linarith [h.1.1.2, h.2]
  refine ⟨hin, ?_⟩
  intro s event p q n hn hb hpq hq
  have := ((mem_handle_input_iff s event q).mp hq).2 p n hpq hn
  rw [hb, hin] at this
  cases this

/-- C14 on the zero-width rectangle `(10,10)-(10,20)` and on the inverted
rectangle `(30,0)-(20,10)`, tested at points on and between their edges. -/
theorem degenerate_hit_test_empty_witness :
    ((Rect.mk 10 10 10 20).x1 ≤ (Rect.mk 10 10 10 20).x0 ∨
      (Rect.mk 10 10 10 20).y1 ≤ (Rect.mk 10 10 10 20).y0) ∧
    (Rect.mk 10 10 10 20).inside (10, 15) = false ∧
    (Rect.mk 30 0 20 10).inside (25, 5) = false :=
  ⟨Or.inl (le_refl _),
    (degenerate_hit_test_empty ⟨10, 10, 10, 20⟩ (Or.inl (le_refl _))).1 (10, 15),
    by norm_num [Rect.inside]⟩

/-- C15: when `draw()` invokes the render hook of a node other than the root,
the parent pointer of the render context designates that node's parent in the
tree: the node is child number `i` of the node the pointer designates. -/
theorem render_context_parent (s : UISurface) (c : RenderCall) (hc : c ∈ s.draw)
    (hne : c.control ≠ []) :
    ∃ (i : Nat) (par n : UIComponent), c.control = c.e.parent ++ [i] ∧
      s.root.nodeAt c.e.parent = some par ∧ par.children[i]? = some n ∧
      s.root.nodeAt c.control = some n := by
  have hpar : c.e.parent = c.control.dropLast := by
    rcases render_parent [] s.root _ c hc with h | h
    · exact absurd (by rw [h]) hne
    · exact h
  have hctl : c.control = c.e.parent ++ [c.control.getLast hne] := by
    rw [hpar, List.dropLast_append_getLast]
  have hmem : c.control ∈ preorder [] s.root := by
    rw [← draw_control]
    exact List.mem_map_of_mem _ hc
  obtain ⟨n, hn⟩ := (mem_preorder_iff c.control s.root []).mp (by simpa using hmem)
  have hn' := hn
  rw [hctl, nodeAt_append] at hn'
  cases hp : s.root.nodeAt c.e.parent with
  | none => simp [hp] at hn'
  | some par =>
    simp only [hp, Option.some_bind, nodeAt_singleton] at hn'
    exact ⟨_, par, n, hctl, rfl, hn', hn⟩

/-- C15 on the second child of the root of `threeLevelTree`, rendered after the
whole subtree of the first child: its context still names the root as parent. -/
theorem render_context_parent_witness :
    (⟨[1], ⟨0, [], 1, 2⟩⟩ : RenderCall) ∈ (surfaceOf threeLevelTree).draw ∧
    (⟨[0, 1], ⟨0, [0], 1, 2⟩⟩ : RenderCall) ∈ (surfaceOf threeLevelTree).draw ∧
    (⟨[1], ⟨0, [], 1, 2⟩⟩ : RenderCall).control ≠ [] ∧
    ∃ (i : Nat) (par n : UIComponent),
      (⟨[1], ⟨0, [], 1, 2⟩⟩ : RenderCall).control =
        (⟨[1], ⟨0, [], 1, 2⟩⟩ : RenderCall).e.parent ++ [i] ∧
      (surfaceOf threeLevelTree).root.nodeAt (⟨[1], ⟨0, [], 1, 2⟩⟩ : RenderCall).e.parent =
        some par ∧
      par.children[i]? = some n ∧
      (surfaceOf threeLevelTree).root.nodeAt (⟨[1], ⟨0, [], 1, 2⟩⟩ : RenderCall).control =
        some n :=
  have h1 : (⟨[1], ⟨0, [], 1, 2⟩⟩ : RenderCall) ∈ (surfaceOf threeLevelTree).draw := by
    simp [UISurface.draw, render, renderChildren, surfaceOf, threeLevelTree, plainNode]
  ⟨h1, by simp [UISurface.draw, render, renderChildren, surfaceOf, threeLevelTree, plainNode],
    by simp, render_context_parent (surfaceOf threeLevelTree) _ h1 (by simp)⟩

/-! ## Surface construction, style sheets and widget hooks -/

/-- C16: constructing `UISurface(width, height, ...)` with a drawing context
that could be created succeeds and gives a surface whose root has the bounds
`(0, 0)-(width, height)` and no children; without a drawing context the
constructor fails and there is no surface. -/
theorem surface_root_covers_area (dflt : UIStyleSheet) (nvg : Nat) (width height : ℚ)
    (text_font icon_font : Nat) :
    (∃ s : UISurface,
      UISurface.make dflt (some nvg) width height text_font icon_font = .ok s ∧
      s.get_root.bounds = ⟨0, 0, width, height⟩ ∧ s.get_root.children = []) ∧
    UISurface.make dflt none width height text_font icon_font =
      .error "error initializing nanovg context" :=
  ⟨⟨_, rfl, rfl, rfl⟩, rfl⟩

/-- C17: after any sequence of `set_root_stylesheet` calls on a surface, every
widget made by `make_label`, `make_button` or `make_slider` has the sheet of
the last call as its style (the sheet the surface had before when there was
no call, which for a newly constructed surface is the default sheet), and it
carries the text, bound variable and range given to the factory. -/
theorem widgets_take_current_stylesheet (s0 : UISurface) (sheets : List UIStyleSheet) :
    (∀ text : String,
      ((sheets.foldl UISurface.set_root_stylesheet s0).make_label text).style =
        sheets.getLast?.getD s0.stylesheet ∧
      ((sheets.foldl UISurface.set_root_stylesheet s0).make_label text).control =
        .label text) ∧
    (∀ (text : String) (v : Nat),
      ((sheets.foldl UISurface.set_root_stylesheet s0).make_button text v).style =
        sheets.getLast?.getD s0.stylesheet ∧
      ((sheets.foldl UISurface.set_root_stylesheet s0).make_button text v).control =
        .button (some v) false text) ∧
    (∀ (min max : ℚ) (v : Nat),
      ((sheets.foldl UISurface.set_root_stylesheet s0).make_slider min max v).style =
        sheets.getLast?.getD s0.stylesheet ∧
      ((sheets.foldl UISurface.set_root_stylesheet s0).make_slider min max v).control =
        .slider min max (some v)) ∧
    (∀ (dflt : UIStyleSheet) (nvg : Nat) (width height : ℚ) (text_font icon_font : Nat),
      ∃ s : UISurface,
        UISurface.make dflt (some nvg) width height text_font icon_font = .ok s ∧
        s.stylesheet = dflt) := by
  have h := (foldl_set_root_stylesheet sheets s0).1
  refine ⟨?_, ?_, ?_, ?_⟩
  · intro text
    exact ⟨by rw [← h]; rfl, rfl⟩
  · intro text v
    exact ⟨by rw [← h]; rfl, rfl⟩
  · intro min max v
    exact ⟨by rw [← h]; rfl, rfl⟩
  · intro dflt nvg width height text_font icon_font
    exact ⟨_, rfl, rfl⟩

/-- C18: neither `handle_input` nor `draw` changes the tree: the root after
either call is the root before it, so every node keeps its bounds, placement
and children; and each single render or input hook, of whatever widget
class, returns the node as it was. -/
theorem traversals_keep_tree (s : UISurface) (event : InputEvent) :
    s.afterInput event = s ∧ s.afterDraw = s ∧
    (∀ p : Path, (s.afterInput event).root.nodeAt p = s.root.nodeAt p) ∧
    (∀ p : Path, s.afterDraw.root.nodeAt p = s.root.nodeAt p) ∧
    (∀ (n : UIComponent) (e : UIRenderEvent), (n.renderHook e).1 = n) ∧
    (∀ (n : UIComponent) (e : InputEvent), (n.inputHook e).1 = n) := by
  have h1 : s.afterInput event = s := by
    simp [UISurface.afterInput, inputTree_eq]
  have h2 : s.afterDraw = s := by
    simp [UISurface.afterDraw, renderTree_eq]
  refine ⟨h1, h2, ?_, ?_, ?_, ?_⟩
  · intro p; rw [h1]
  · intro p; rw [h2]
  · intro n e; exact renderHook_node e n
  · intro n e; exact inputHook_node e n

/-- C19: `set_root_stylesheet` changes only the sheet used for widgets made
afterwards: the tree under the root, with the style of the root and of every
widget in it, is unchanged, and a newly constructed surface's root keeps the
default sheet it was built with. -/
theorem set_root_stylesheet_keeps_styles (s : UISurface) (ss : UIStyleSheet) :
    (s.set_root_stylesheet ss).root = s.root ∧
    (s.set_root_stylesheet ss).get_root.style = s.get_root.style ∧
    (∀ (p : Path) (n : UIComponent), s.root.nodeAt p = some n →
      ∃ m, (s.set_root_stylesheet ss).root.nodeAt p = some m ∧ m.style = n.style) ∧
    (∀ text : String, ((s.set_root_stylesheet ss).make_label text).style = ss) ∧
    (∀ (dflt : UIStyleSheet) (nvg : Nat) (width height : ℚ) (text_font icon_font : Nat),
      ∃ s1 : UISurface,
        UISurface.make dflt (some nvg) width height text_font icon_font = .ok s1 ∧
        (s1.set_root_stylesheet ss).get_root.style = dflt) := by
  refine ⟨rfl, rfl, ?_, ?_, ?_⟩
  · intro p n h
    exact ⟨n, h, rfl⟩
  · intro text; rfl
  · intro dflt nvg width height text_font icon_font
    exact ⟨_, rfl, rfl⟩

/-- C20 as stated fails: the button class does not override the input hook, and
there is no input event that changes the button (its hover flag or its
binding) when delivered to its input hook; likewise for the slider. -/
theorem button_input_hook_inert :
    exampleButton.control.overridesInput = false ∧
    exampleSlider.control.overridesInput = false ∧
    (¬ ∃ e : InputEvent, (exampleButton.inputHook e).1 ≠ exampleButton) ∧
    (¬ ∃ e : InputEvent, (exampleSlider.inputHook e).1 ≠ exampleSlider) := by
  refine ⟨rfl, rfl, ?_, ?_⟩
  · rintro ⟨e, h⟩
    exact h (inputHook_node e _)
  · rintro ⟨e, h⟩
    exact h (inputHook_node e _)

/-- C20, amended: label, button and slider each override the render hook; only
the label overrides the input hook, and it prints the cursor position.  The
input hook of a button or a slider is the inherited one: it does nothing, so
no input event changes the hover flag, the binding or any other member.  The
hover flag is read by the button's render hook, which strokes the bounds once
more when it is set. -/
theorem widget_hooks (s : UIStyleSheet) (b : Rect) (p : Placement) (cs : List UIComponent)
    (e : InputEvent) (r : UIRenderEvent) :
    (∀ text, (Control.label text).overridesRender = true ∧
      (Control.label text).overridesInput = true) ∧
    (∀ value hover text, (Control.button value hover text).overridesRender = true ∧
      (Control.button value hover text).overridesInput = false) ∧
    (∀ min max value, (Control.slider min max value).overridesRender = true ∧
      (Control.slider min max value).overridesInput = false) ∧
    (∀ text, (UIComponent.mk s (.label text) b p cs).inputHook e =
      (.mk s (.label text) b p cs, [.print e.cursor])) ∧
    (∀ value hover text, (UIComponent.mk s (.button value hover text) b p cs).inputHook e =
      (.mk s (.button value hover text) b p cs, [])) ∧
    (∀ min max value, (UIComponent.mk s (.slider min max value) b p cs).inputHook e =
      (.mk s (.slider min max value) b p cs, [])) ∧
    (∀ value text,
      ((UIComponent.mk s (.button value true text) b p cs).renderHook r).2 =
        [.nvgText r.text s.textColor text,
         .nvgStroke b.x0 b.y0 b.width b.height s.borderColor,
         .nvgStroke b.x0 b.y0 b.width b.height s.borderColor] ∧
      ((UIComponent.mk s (.button value false text) b p cs).renderHook r).2 =
        [.nvgText r.text s.textColor text,
         .nvgStroke b.x0 b.y0 b.width b.height s.borderColor]) := by
  refine ⟨fun _ => ⟨rfl, rfl⟩, fun _ _ _ => ⟨rfl, rfl⟩, fun _ _ _ => ⟨rfl, rfl⟩,
    fun _ => rfl, fun _ _ _ => rfl, fun _ _ _ => rfl, fun _ _ => ⟨rfl, rfl⟩⟩

/-! ## Euclidean rhythm -/

theorem rotate_right_concat {α : Type} (l : List α) (x : α) :
    rotate_right (l ++ [x]) = x :: l := by
  simp [rotate_right, std_rotate]

/-- C21: the step commented `Rotate right` rotates a pattern of length at least
one right by one position: the last entry comes first and every other entry
moves one position up; and for `make_euclidean_rhythm(16, 4)` the rotated
pattern has its pulses exactly at positions 0, 4, 8 and 12. -/
theorem rotate_right_shifts :
    (∀ p : List Bool, 1 ≤ p.length →
      (rotate_right p).length = p.length ∧
      (rotate_right p)[0]? = p[p.length - 1]? ∧
      ∀ i : Nat, 1 ≤ i → i < p.length → (rotate_right p)[i]? = p[i - 1]?) ∧
    (∀ fuel : Nat, 4 ≤ fuel → ∃ p, make_euclidean_rhythm fuel 16 4 = .ok p ∧
      rotate_right p =
        [true, false, false, false, true, false, false, false,
         true, false, false, false, true, false, false, false] ∧
      ∀ i : Nat, (rotate_right p)[i]? = some true ↔ (i = 0 ∨ i = 4 ∨ i = 8 ∨ i = 12)) := by
  constructor
  · intro p hp
    rcases List.eq_nil_or_concat p with h | ⟨l, x, h⟩
    · subst h
      simp at hp
    · rw [List.concat_eq_append] at h
      subst h
      rw [rotate_right_concat]
      refine ⟨by simp, by simp, ?_⟩
      intro i h1 h2
      obtain ⟨j, rfl⟩ : ∃ j, i = j + 1 := ⟨i - 1, by omega⟩
      simp only [List.length_append, List.length_singleton] at h2
      rw [List.getElem?_cons_succ, Nat.add_sub_cancel, List.getElem?_append_left (by omega)]
  · intro fuel hfuel
    obtain ⟨f, rfl⟩ : ∃ f, fuel = f + 1 := ⟨fuel - 1, by omega⟩
    have hloop : euclidLoop (f + 1) [] [4] (16 - 4) 0 = .ok ([3], [4, 0], 4, 1) := by
      rw [euclidLoop]
      rfl
    have hbj := bjorklund_word [3, 4] [4, 0] 3 (by intro l hl; simp; omega) []
    have hword : word [3, 4] [4, 0] 3 =
        [false, false, false, true, false, false, false, true,
         false, false, false, true, false, false, false, true] := by decide
    refine ⟨[] ++ word [3, 4] [4, 0] 3, ?_, ?_, ?_⟩
    · rw [make_euclidean_rhythm, if_neg (by decide), hloop]
      exact hbj
    · rw [hword]
      rfl
    · intro i
      rw [hword]
      have e : rotate_right ([] ++ [false, false, false, true, false, false, false, true,
          false, false, false, true, false, false, false, true]) =
          [true, false, false, false, true, false, false, false,
           true, false, false, false, true, false, false, false] := rfl
      rw [e]
      constructor
      · intro h
        have hlt : i < 16 := by
          have := (List.getElem?_eq_some.mp h).1
          simpa using this
        interval_cases i <;> simp_all
      · rintro (h | h | h | h) <;> subst h <;> rfl

/-- C22: for `1 <= pulses <= steps` (and fuel of at least `pulses` for the
loop) `make_euclidean_rhythm(steps, pulses)` returns a pattern of length
exactly `steps`. -/
theorem rhythm_length (fuel : Nat) (steps pulses : Int) (h1 : 1 ≤ pulses)
    (h2 : pulses ≤ steps) (hf : pulses.toNat ≤ fuel) :
    ∃ p, make_euclidean_rhythm fuel steps pulses = .ok p ∧ (p.length : Int) = steps := by
  obtain ⟨p, hp, hlen⟩ := make_euclidean_rhythm_measure (fun w => (w.length : Int)) rfl
    (by intro x y; simp) fuel steps pulses h1 h2 hf
  refine ⟨p, hp, ?_⟩
  simp only [List.length_singleton, Nat.cast_one, mul_one] at hlen
  omega

/-- C22 at `steps = 13`, `pulses = 5`, fuel 5. -/
theorem rhythm_length_witness :
    (1 : Int) ≤ 5 ∧ (5 : Int) ≤ 13 ∧ (5 : Int).toNat ≤ 5 ∧
    ∃ p, make_euclidean_rhythm 5 13 5 = .ok p ∧ (p.length : Int) = 13 :=
  ⟨by decide, by decide, by decide, rhythm_length 5 13 5 (by decide) (by decide) (by decide)⟩

/-- C23: for `1 <= pulses <= steps` (and fuel of at least `pulses`) the pattern
returned by `make_euclidean_rhythm(steps, pulses)` contains exactly `pulses`
entries equal to `true`. -/
theorem rhythm_pulse_count (fuel : Nat) (steps pulses : Int) (h1 : 1 ≤ pulses)
    (h2 : pulses ≤ steps) (hf : pulses.toNat ≤ fuel) :
    ∃ p, make_euclidean_rhythm fuel steps pulses = .ok p ∧ (p.count true : Int) = pulses := by
  obtain ⟨p, hp, hcnt⟩ := make_euclidean_rhythm_measure (fun w => (w.count true : Int)) rfl
    (by intro x y; simp [List.count_append]) fuel steps pulses h1 h2 hf
  refine ⟨p, hp, ?_⟩
  simpa using hcnt

/-- C23 at `steps = 13`, `pulses = 5`, fuel 5. -/
theorem rhythm_pulse_count_witness :
    (1 : Int) ≤ 5 ∧ (5 : Int) ≤ 13 ∧ (5 : Int).toNat ≤ 5 ∧
    ∃ p, make_euclidean_rhythm 5 13 5 = .ok p ∧ (p.count true : Int) = 5 :=
  ⟨by decide, by decide, by decide,
    rhythm_pulse_count 5 13 5 (by decide) (by decide) (by decide)⟩

/-- C24: for `1 <= pulses <= steps` (and fuel of at least `pulses`), from every
pulse of the returned pattern the next pulse, going round cyclically, is `d`
positions on, with no pulse in between, where `d` is the floor or the ceiling
of `steps / pulses`; when `pulses` divides `steps` every distance is
`steps / pulses`. -/
theorem rhythm_evenness (fuel : Nat) (steps pulses : Int) (h1 : 1 ≤ pulses)
    (h2 : pulses ≤ steps) (hf : pulses.toNat ≤ fuel) :
    ∃ p, make_euclidean_rhythm fuel steps pulses = .ok p ∧
      ∀ i : Nat, p[i]? = some true →
        ∃ d : Nat, 1 ≤ d ∧
          ((d : Int) = steps / pulses ∨ (d : Int) = (steps + pulses - 1) / pulses) ∧
          (pulses ∣ steps → (d : Int) = steps / pulses) ∧
          p[(i + d) % p.length]? = some true ∧
          ∀ d' : Nat, 1 ≤ d' → d' < d → p[(i + d') % p.length]? = some false := by
  obtain ⟨p, hp, hblocks⟩ := make_euclidean_rhythm_blocks fuel steps pulses h1 h2 hf
  obtain ⟨hfloor, hceil, _, hdvd⟩ := floor_of_blocks steps pulses h1 h2
  refine ⟨p, hp, ?_⟩
  intro i hi
  obtain ⟨hlt, hval⟩ := List.getElem?_eq_some.mp hi
  have hsplit : p = List.take i p ++ true :: List.drop (i + 1) p := by
    conv_lhs => rw [← List.take_append_drop i p, List.drop_eq_getElem_cons hlt, hval]
  obtain ⟨g, rest, hg, hgc⟩ := Blocks_gap _ _ p _ _ hblocks hsplit
  obtain ⟨hnext, hbetween⟩ := cyclic_gap p i g rest hi hg
  refine ⟨g + 1, by omega, ?_, ?_, hnext, hbetween⟩
  · rcases hgc with h | ⟨htwo, h⟩
    · left
      rw [h]
      push_cast
      exact hfloor
    · right
      rw [h]
      push_cast
      have := hceil htwo
      omega
  · intro hdiv
    rcases hgc with h | ⟨htwo, h⟩
    · rw [h]
      push_cast
      exact hfloor
    · exact absurd (hdvd hdiv) htwo

/-- C24 at `steps = 13`, `pulses = 5`, fuel 5, where the distances are 2 and 3. -/
theorem rhythm_evenness_witness :
    (1 : Int) ≤ 5 ∧ (5 : Int) ≤ 13 ∧ (5 : Int).toNat ≤ 5 ∧
    ∃ p, make_euclidean_rhythm 5 13 5 = .ok p ∧
      ∀ i : Nat, p[i]? = some true →
        ∃ d : Nat, 1 ≤ d ∧
          ((d : Int) = 13 / 5 ∨ (d : Int) = (13 + 5 - 1) / 5) ∧
          ((5 : Int) ∣ 13 → (d : Int) = 13 / 5) ∧
          p[(i + d) % p.length]? = some true ∧
          ∀ d' : Nat, 1 ≤ d' → d' < d → p[(i + d') % p.length]? = some false :=
  ⟨by decide, by decide, by decide, rhythm_evenness 5 13 5 (by decide) (by decide) (by decide)⟩

/-- C25: whenever `pulses > steps`, `pulses == 0` or `steps == 0`,
`make_euclidean_rhythm` returns the empty pattern, whatever budget the loop
is given (also none at all: the loop, where the only divisions are, is not
entered).  Entered with `pulses == 0` the loop would at once divide by zero. -/
theorem guard_returns_empty (fuel : Nat) (steps pulses : Int)
    (h : pulses > steps ∨ pulses = 0 ∨ steps = 0) :
    make_euclidean_rhythm fuel steps pulses = .ok [] ∧
    make_euclidean_rhythm 0 steps pulses = .ok [] ∧
    euclidLoop (fuel + 1) [] [0] (steps - 0) 0 = .error .divisionByZero := by
  refine ⟨?_, ?_, ?_⟩
  · rw [make_euclidean_rhythm, if_pos h]
  · rw [make_euclidean_rhythm, if_pos h]
  · rw [euclidLoop]
    rfl

/-- C25 at `steps = 5`, `pulses = 0` and at `steps = 3`, `pulses = 7`. -/
theorem guard_returns_empty_witness :
    ((0 : Int) > 5 ∨ (0 : Int) = 0 ∨ (5 : Int) = 0) ∧
    (make_euclidean_rhythm 0 5 0 = .ok [] ∧
      make_euclidean_rhythm 0 5 0 = .ok [] ∧
      euclidLoop (0 + 1) [] [0] (5 - 0) 0 = .error .divisionByZero) ∧
    make_euclidean_rhythm 9 3 7 = .ok [] :=
  ⟨Or.inr (Or.inl rfl), guard_returns_empty 0 5 0 (Or.inr (Or.inl rfl)),
    (guard_returns_empty 9 3 7 (Or.inl (by decide))).1⟩

/-- C26: for `1 <= pulses <= steps` the loop leaves by its `break` within any
budget of at least `pulses` iterations: the remainders it pushes are strictly
decreasing, so at most `pulses` levels are built; and the recursive lambda,
whose calls go from level to level - 1 and level - 2 down to -1 and -2,
returns on the vectors built, so `make_euclidean_rhythm` returns a pattern. -/
theorem rhythm_terminates (fuel : Nat) (steps pulses : Int) (h1 : 1 ≤ pulses)
    (h2 : pulses ≤ steps) (hf : pulses.toNat ≤ fuel) :
    ∃ (c r : List Int) (d : Int) (lev : Nat) (p : List Bool),
      euclidLoop fuel [] [pulses] (steps - pulses) 0 = .ok (c, r, d, (lev : Int)) ∧
      r.Pairwise (fun a b => b < a) ∧ (lev : Int) ≤ pulses ∧
      bjorklund (c ++ [d]) r (lev : Int) [] = .ok p ∧
      make_euclidean_rhythm fuel steps pulses = .ok p := by
  obtain ⟨c, r, d, ρ, lev, hloop, hmake, hc, hr, hρ, hρ0, hρ1, hd, hlev, ρ', hρ', hsum, hpw, _⟩ :=
    make_euclidean_rhythm_spec
      (fun c r d lev => ∃ ρ, r[lev]? = some ρ ∧ ρ + lev ≤ pulses ∧
        r.Pairwise (fun a b => b < a) ∧ ∀ x ∈ r, ρ ≤ x)
      (by
        intro c r d ρ lev hc hr hρ h1ρ _ hd ⟨ρ', hρ', hsum, hpw, hmin⟩
        rw [hρ] at hρ'
        cases hρ'
        have hmlt : d.tmod ρ < ρ := Int.tmod_lt_of_pos d (by omega)
        refine ⟨d.tmod ρ, ?_, by push_cast; omega, ?_, ?_⟩
        · rw [List.getElem?_append_right (by omega)]
          simp [hr]
        · rw [List.pairwise_append]
          refine ⟨hpw, List.pairwise_singleton _ _, ?_⟩
          intro a ha b hb
          rw [List.mem_singleton] at hb
          subst hb
          have := hmin a ha
          omega
        · intro x hx
          rcases List.mem_append.mp hx with h | h
          · have := hmin x h
            omega
          · rw [List.mem_singleton] at h
            omega)
      fuel steps pulses h1 h2 hf ⟨pulses, rfl, by simp, by simp, by simp⟩
  rw [hρ] at hρ'
  cases hρ'
  refine ⟨c, r, d, lev, _, hloop, hpw, by omega, ?_, hmake⟩
  have hm := hmake
  rw [make_euclidean_rhythm, if_neg (by omega), hloop] at hm
  exact hm

/-- C26 at `steps = 13`, `pulses = 5`, fuel 5. -/
theorem rhythm_terminates_witness :
    (1 : Int) ≤ 5 ∧ (5 : Int) ≤ 13 ∧ (5 : Int).toNat ≤ 5 ∧
    ∃ (c r : List Int) (d : Int) (lev : Nat) (p : List Bool),
      euclidLoop 5 [] [5] (13 - 5) 0 = .ok (c, r, d, (lev : Int)) ∧
      r.Pairwise (fun a b => b < a) ∧ (lev : Int) ≤ 5 ∧
      bjorklund (c ++ [d]) r (lev : Int) [] = .ok p ∧
      make_euclidean_rhythm 5 13 5 = .ok p :=
  ⟨by decide, by decide, by decide,
    rhythm_terminates 5 13 5 (by decide) (by decide) (by decide)⟩

/-- C27: for `1 <= pulses <= steps` the run of `make_euclidean_rhythm` meets no
fault: it returns a pattern, so no division or modulo had a zero divisor and
no access to `counts` or `remainders`, in the loop or in the recursion, was
outside the vector; every divisor `remainders[level]` used by the loop is at
least one, and the vectors have `level + 1` entries when the recursion starts. -/
theorem rhythm_safe (fuel : Nat) (steps pulses : Int) (h1 : 1 ≤ pulses)
    (h2 : pulses ≤ steps) (hf : pulses.toNat ≤ fuel) :
    ∃ (c r : List Int) (d : Int) (lev : Nat) (p : List Bool),
      euclidLoop fuel [] [pulses] (steps - pulses) 0 = .ok (c, r, d, (lev : Int)) ∧
      make_euclidean_rhythm fuel steps pulses = .ok p ∧
      (∀ l : Nat, l < lev → ∃ ρ, r[l]? = some ρ ∧ 1 ≤ ρ) ∧
      (c ++ [d]).length = lev + 1 ∧ r.length = lev + 1 := by
  obtain ⟨c, r, d, ρ, lev, hloop, hmake, hc, hr, hρ, hρ0, hρ1, hd, hlev, hinv⟩ :=
    make_euclidean_rhythm_spec
      (fun _ r _ lev => ∀ l : Nat, l < lev → ∃ ρ, r[l]? = some ρ ∧ 1 ≤ ρ)
      (by
        intro c r d ρ lev hc hr hρ h1ρ _ hd hinv l hl
        rcases Nat.lt_succ_iff_lt_or_eq.mp hl with h | h
        · obtain ⟨ρ', hρ', h1'⟩ := hinv l h
          exact ⟨ρ', by rw [List.getElem?_append_left (by omega)]; exact hρ', h1'⟩
        · subst h
          exact ⟨ρ, by rw [List.getElem?_append_left (by omega)]; exact hρ, h1ρ⟩)
      fuel steps pulses h1 h2 hf (fun l hl => absurd hl (by omega))
  exact ⟨c, r, d, lev, _, hloop, hmake, hinv, by simp [hc], hr⟩

/-- C27 at `steps = 13`, `pulses = 5`, fuel 5. -/
theorem rhythm_safe_witness :
    (1 : Int) ≤ 5 ∧ (5 : Int) ≤ 13 ∧ (5 : Int).toNat ≤ 5 ∧
    ∃ (c r : List Int) (d : Int) (lev : Nat) (p : List Bool),
      euclidLoop 5 [] [5] (13 - 5) 0 = .ok (c, r, d, (lev : Int)) ∧
      make_euclidean_rhythm 5 13 5 = .ok p ∧
      (∀ l : Nat, l < lev → ∃ ρ, r[l]? = some ρ ∧ 1 ≤ ρ) ∧
      (c ++ [d]).length = lev + 1 ∧ r.length = lev + 1 :=
  ⟨by decide, by decide, by decide, rhythm_safe 5 13 5 (by decide) (by decide) (by decide)⟩

/-- The run on `steps = 13`, `pulses = 5`: three iterations of the loop, then
the pattern `. x . . x . x . . x . x .`. -/
theorem rhythm_13_5 :
    euclidLoop 5 [] [5] (13 - 5) 0 = .ok ([1, 1, 1], [5, 3, 2, 1], 2, 3) ∧
    make_euclidean_rhythm 5 13 5 =
      .ok [false, true, false, false, true, false, true, false, false, true, false, true,
        false] := by
  have hloop : euclidLoop 5 [] [5] (13 - 5) 0 = .ok ([1, 1, 1], [5, 3, 2, 1], 2, 3) := rfl
  refine ⟨hloop, ?_⟩
  have hbj := bjorklund_word [1, 1, 1, 2] [5, 3, 2, 1] 5 (by intro l hl; simp; omega) []
  have hword : word [1, 1, 1, 2] [5, 3, 2, 1] 5 =
      [false, true, false, false, true, false, true, false, false, true, false, true,
        false] := by decide
  rw [make_euclidean_rhythm, if_neg (by decide), hloop]
  rw [hword] at hbj
  exact hbj

/-! ## The layout of the Euclidean application and the sphere mesh -/

theorem length_flatMap_const {α β : Type} (f : α → List β) (k : Nat)
    (h : ∀ a, (f a).length = k) : ∀ l : List α, (l.flatMap f).length = l.length * k := by
  intro l
  induction l with
  | nil => simp
  | cons a l ih =>
    rw [List.flatMap_cons, List.length_append, h, ih, List.length_cons]
    ring

/-- C28: in the Euclidean application, for every window width and height (root
at the origin, exact arithmetic), after `layout()` the label spans
`x` in `[10, W/4]` and the button `x` in `[W/4 + 10, W/2 - 10]`, both span
`y` in `[10, 90]`; the button's left edge is exactly 10 to the right of the
label's right edge, and no cursor position is inside both rectangles. -/
theorem euclidean_app_layout (dflt : UIStyleSheet) (nvg : Nat) (W H : ℚ) (font : Nat) :
    ∃ (ui : UISurface) (label button : UIComponent),
      euclideanAppUI dflt (some nvg) W H font = .ok ui ∧
      ui.get_root.bounds = ⟨0, 0, W, H⟩ ∧
      ui.get_root.children = [label, button] ∧
      label.control = .label "A label is me" ∧
      button.control = .button (some 0) false "I\x27m a button" ∧
      label.bounds = ⟨10, 10, W / 4, 90⟩ ∧
      button.bounds = ⟨W / 4 + 10, 10, W / 2 - 10, 90⟩ ∧
      button.bounds.x0 = label.bounds.x1 + 10 ∧
      ∀ cursor : ℚ × ℚ,
        ¬ (label.bounds.inside cursor = true ∧ button.bounds.inside cursor = true) := by
  have hl : resolve ⟨0, 0, W, H⟩ labelPlacement = ⟨10, 10, W / 4, 90⟩ := by
    simp only [resolve, labelPlacement, Rect.width, Rect.height, Rect.mk.injEq]
    refine ⟨?_, ?_, ?_, ?_⟩ <;> ring
  have hb : resolve ⟨0, 0, W, H⟩ buttonPlacement = ⟨W / 4 + 10, 10, W / 2 - 10, 90⟩ := by
    simp only [resolve, buttonPlacement, Rect.width, Rect.height, Rect.mk.injEq]
    refine ⟨?_, ?_, ?_, ?_⟩ <;> ring
  refine ⟨_, _, _, rfl, rfl, rfl, rfl, rfl, hl, hb, ?_, ?_⟩
  · show (resolve ⟨0, 0, W, H⟩ buttonPlacement).x0 =
      (resolve ⟨0, 0, W, H⟩ labelPlacement).x1 + 10
    rw [hl, hb]
  · intro cursor
    show ¬ ((resolve ⟨0, 0, W, H⟩ labelPlacement).inside cursor = true ∧
      (resolve ⟨0, 0, W, H⟩ buttonPlacement).inside cursor = true)
    rw [hl, hb]
    simp only [Rect.inside, Bool.and_eq_true, decide_eq_true_eq]
    rintro ⟨hA, hB⟩
    linarith [hA.1.2, hB.1.1.1]

/-- C29: `make_sphere_mesh` builds, for every radius, 256 vertices, 256 normals
and 512 triangles, and every index of every triangle is below 256, also in
the last row and column where `(ui + 1) % U` or `(vi + 1) % V` is 0 (for
`ui = vi = 15` the triangles are `(255, 15, 0)` and `(255, 0, 240)`). -/
theorem sphere_mesh_indices (spherical : ℚ → ℚ → Float3) (pi radius : ℚ) :
    (make_sphere_mesh spherical pi radius).vertices.length = 256 ∧
    (make_sphere_mesh spherical pi radius).normals.length = 256 ∧
    (make_sphere_mesh spherical pi radius).faces.length = 512 ∧
    (∀ f ∈ (make_sphere_mesh spherical pi radius).faces,
      f.1 < 256 ∧ f.2.1 < 256 ∧ f.2.2 < 256) ∧
    (255, 15, 0) ∈ (make_sphere_mesh spherical pi radius).faces ∧
    (255, 0, 240) ∈ (make_sphere_mesh spherical pi radius).faces := by
  refine ⟨?_, ?_, ?_, ?_, ?_, ?_⟩
  · simp only [make_sphere_mesh]
    rw [length_flatMap_const _ 16 (by intro a; simp)]
    simp
  · simp only [make_sphere_mesh]
    rw [length_flatMap_const _ 16 (by intro a; simp)]
    simp
  · simp only [make_sphere_mesh]
    rw [length_flatMap_const _ 32 (by
      intro a
      rw [length_flatMap_const _ 2 (by intro b; rfl)]
      simp)]
    simp
  · intro f hf
    simp only [make_sphere_mesh, List.mem_flatMap, List.mem_range, List.mem_cons,
      List.mem_singleton, List.not_mem_nil, or_false] at hf
    obtain ⟨ui, hui, vi, hvi, h | h⟩ := hf
    · subst h
      refine ⟨?_, ?_, ?_⟩ <;> simp only [] <;> omega
    · subst h
      refine ⟨?_, ?_, ?_⟩ <;> simp only [] <;> omega
  · simp only [make_sphere_mesh, List.mem_flatMap, List.mem_range, List.mem_cons,
      List.mem_singleton]
    exact ⟨15, by decide, 15, by decide, Or.inl (by decide)⟩
  · simp only [make_sphere_mesh, List.mem_flatMap, List.mem_range, List.mem_cons,
      List.mem_singleton]
    exact ⟨15, by decide, 15, by decide, Or.inr (Or.inl (by decide))⟩

end UILayout
